import Mathlib

/-!
Shallow embedding of the `online_query_allocation` repository.

Conventions of the embedding:
* Python floats carrying money/bids are modelled as exact rationals `ℚ`
  (all arithmetic the programme performs on them is field arithmetic);
  the transcendental scoring function `phi_alpha` (which calls `math.exp`)
  is modelled over `ℝ`.
* Mutation is modelled by explicit state passing: a method that mutates
  an object returns the updated value.
* An uncaught Python exception (`ValueError`, `KeyError`, `IndexError`,
  `ZeroDivisionError`) is modelled by an `Option`-valued function
  returning `none`.
* Python `dict`s (which preserve insertion order) are modelled as
  association lists `List (String × _)`, looked up with `List.lookup`.
-/

namespace OQA

/-- `src/advertiser.py`: class `Advertiser` (the fields of one instance). -/
structure Advertiser where
  name : String
  initial_budget : ℚ
  spent_budget : ℚ
deriving Repr, DecidableEq

/-- `src/advertiser.py`, `Advertiser.remaining_budget`. -/
def Advertiser.remaining_budget (a : Advertiser) : ℚ :=
  a.initial_budget - a.spent_budget

/-- `src/advertiser.py`, `Advertiser.budget_fraction`:
`1.0` when `initial_budget == 0`, else `spent_budget / initial_budget`. -/
def Advertiser.budget_fraction (a : Advertiser) : ℚ :=
  if a.initial_budget = 0 then 1 else a.spent_budget / a.initial_budget

/-- `src/advertiser.py`, `Advertiser.deduct_budget`: raises `ValueError`
(modelled as `none`) when `amount > remaining_budget`, otherwise adds
`amount` to `spent_budget`. -/
def Advertiser.deduct_budget (a : Advertiser) (amount : ℚ) : Option Advertiser :=
  if amount > a.remaining_budget then none
  else some { a with spent_budget := a.spent_budget + amount }

/-- `src/advertiser.py`, classmethod `Advertiser.reset_budgets`:
zeroes `spent_budget` of every advertiser in the authoritative list. -/
def reset_budgets (l : List Advertiser) : List Advertiser :=
  l.map (fun a => { a with spent_budget := 0 })

/-- `src/utils.py`, `phi_alpha(f, alpha) = 1 - math.exp(alpha * (f - 1))`. -/
noncomputable def phi_alpha (f alpha : ℝ) : ℝ :=
  1 - Real.exp (alpha * (f - 1))

/-- The bid table: Python `dict` advertiser-name → (`dict` keyword → bid). -/
abbrev BidTable := List (String × List (String × ℚ))

/-- `bids.get(name, {}).get(query, 0)` — the total-lookup used by the
pessimistic allocator (`src/pessimistic.py` line 40). -/
def getBid0 (bids : BidTable) (name query : String) : ℚ :=
  ((bids.lookup name).getD []).lookup query |>.getD 0

/-- All bid values stored in the table are non-negative (the data model of
the spec; `src/input_generator.py` clamps every generated bid with
`max(..., 0)`). -/
def BidsNonneg (bids : BidTable) : Prop :=
  ∀ p ∈ bids, ∀ q ∈ p.2, (0:ℚ) ≤ q.2

/-- The per-advertiser budget invariant `0 ≤ spent_budget ≤ initial_budget`
for every advertiser of a ledger. -/
def BudgetInv (l : List Advertiser) : Prop :=
  ∀ a ∈ l, 0 ≤ a.spent_budget ∧ a.spent_budget ≤ a.initial_budget

-- ------------------------------------------------------------------
-- Small helper lemmas about the data model
-- ------------------------------------------------------------------

theorem lookup_mem {α : Type} {l : List (String × α)} {k : String} {v : α}
    (h : List.lookup k l = some v) : (k, v) ∈ l := by
  induction l with
  | nil => simp [List.lookup] at h
  | cons p rest ih =>
    rcases p with ⟨k', v'⟩
    by_cases hk : k = k'
    · subst hk
      simp [List.lookup] at h
      simp [h]
    · rw [List.lookup_cons] at h
      rw [show (k == k') = false from beq_eq_false_iff_ne.mpr hk] at h
      exact List.mem_cons_of_mem _ (ih h)

theorem getBid0_nonneg {bids : BidTable} (hb : BidsNonneg bids)
    (name query : String) : 0 ≤ getBid0 bids name query := by
  unfold getBid0
  cases hd : bids.lookup name with
  | none => simp [hd]
  | some d =>
    cases hq : d.lookup query with
    | none => simp [hd, hq]
    | some v =>
      simp only [hd, Option.getD_some, hq]
      exact hb _ (lookup_mem hd) _ (lookup_mem hq)

theorem deduct_budget_some {a : Advertiser} {amount : ℚ} {a' : Advertiser}
    (h : a.deduct_budget amount = some a') :
    amount ≤ a.remaining_budget ∧
      a' = { a with spent_budget := a.spent_budget + amount } := by
  unfold Advertiser.deduct_budget at h
  by_cases hc : amount > a.remaining_budget
  · simp [hc] at h
  · simp [hc] at h
    exact ⟨le_of_not_lt hc, h.symm⟩

theorem deduct_budget_none {a : Advertiser} {amount : ℚ}
    (h : amount > a.remaining_budget) : a.deduct_budget amount = none := by
  simp [Advertiser.deduct_budget, h]

theorem deduct_budget_isSome {a : Advertiser} {amount : ℚ}
    (h : amount ≤ a.remaining_budget) :
    a.deduct_budget amount =
      some { a with spent_budget := a.spent_budget + amount } := by
  simp [Advertiser.deduct_budget, not_lt.mpr h]

-- ------------------------------------------------------------------
-- C5 — deduct_budget contract
-- ------------------------------------------------------------------

/-- **C5.** `deduct_budget` fails (raises, modelled as `none`) iff
`amount > remaining_budget`; on failure no modified advertiser is
produced, and on success the result differs from the input only in
`spent_budget`, which grows by exactly `amount`. -/
theorem C5_deduct_contract (a : Advertiser) (amount : ℚ) :
    (a.deduct_budget amount = none ↔ amount > a.remaining_budget) ∧
    (amount ≤ a.remaining_budget →
      a.deduct_budget amount =
        some { name := a.name, initial_budget := a.initial_budget,
               spent_budget := a.spent_budget + amount }) := by
  constructor
  · constructor
    · intro h
      by_contra hc
      rw [deduct_budget_isSome (le_of_not_lt hc)] at h
      exact Option.noConfusion h
    · exact deduct_budget_none
  · intro h
    rw [deduct_budget_isSome h]

/-- Witness for C5 at a concrete advertiser. -/
theorem C5_deduct_contract_witness :
    (Advertiser.deduct_budget ⟨"A1", 10, 3⟩ 4 =
      some { name := "A1", initial_budget := 10, spent_budget := 3 + 4 }) :=
  (C5_deduct_contract ⟨"A1", 10, 3⟩ 4).2 (by norm_num [Advertiser.remaining_budget])

-- ------------------------------------------------------------------
-- C9 — deduct_budget performs no non-negativity check
-- ------------------------------------------------------------------

/-- **C9.** `deduct_budget` only checks `amount > remaining_budget`: every
amount `≤ remaining_budget`, including strictly negative ones, succeeds
and is added to `spent_budget`; in particular a negative amount drives
`spent_budget` strictly below zero on a fresh advertiser. -/
theorem C9_no_nonneg_check :
    (∀ (a : Advertiser) (amount : ℚ), amount ≤ a.remaining_budget →
      a.deduct_budget amount =
        some { a with spent_budget := a.spent_budget + amount }) ∧
    (Advertiser.deduct_budget ⟨"A1", 10, 0⟩ (-5) =
        some ⟨"A1", 10, -5⟩ ∧ (-5 : ℚ) < 0) := by
  refine ⟨fun a amount h => deduct_budget_isSome h, ?_, by norm_num⟩
  rw [deduct_budget_isSome (by norm_num [Advertiser.remaining_budget])]
  norm_num

/-- Witness for C9's universally quantified part at a negative amount. -/
theorem C9_no_nonneg_check_witness :
    Advertiser.deduct_budget ⟨"B", 7, 2⟩ (-3) = some { name := "B", initial_budget := 7, spent_budget := 2 + -3 } :=
  C9_no_nonneg_check.1 ⟨"B", 7, 2⟩ (-3) (by norm_num [Advertiser.remaining_budget])

-- ------------------------------------------------------------------
-- C8 — the trade-off scoring function
-- ------------------------------------------------------------------

/-- **C8.** `phi_alpha f α = 1 - exp (α (f - 1))` satisfies
`phi_alpha 1 α = 0`, `phi_alpha 0 α = 1 - exp (-α)`, and for every
`α > 0` it is strictly decreasing in `f` (strictly increasing in `1 - f`);
being a Lean function of its two arguments it is pure by construction. -/
theorem C8_phi_alpha_properties :
    (∀ alpha : ℝ, phi_alpha 1 alpha = 0) ∧
    (∀ alpha : ℝ, phi_alpha 0 alpha = 1 - Real.exp (-alpha)) ∧
    (∀ alpha : ℝ, 0 < alpha → ∀ f g : ℝ, f < g →
      phi_alpha g alpha < phi_alpha f alpha) := by
  refine ⟨fun alpha => ?_, fun alpha => ?_, fun alpha ha f g hfg => ?_⟩
  · simp [phi_alpha]
  · simp [phi_alpha]
  · unfold phi_alpha
    have : alpha * (f - 1) < alpha * (g - 1) := by
      have := sub_lt_sub_right hfg 1
      exact mul_lt_mul_of_pos_left this ha
    have := Real.exp_lt_exp.mpr this
    linarith

/-- Witness for C8, discharging the `0 < α` and `f < g` hypotheses at
`α = 1`, `f = 0`, `g = 1`. -/
theorem C8_phi_alpha_properties_witness :
    phi_alpha 1 1 = 0 ∧ phi_alpha 1 1 < phi_alpha 0 1 := by
  refine ⟨C8_phi_alpha_properties.1 1, ?_⟩
  exact C8_phi_alpha_properties.2.2 1 (by norm_num) 0 1 (by norm_num)

-- ------------------------------------------------------------------
-- Pessimistic allocator (`src/pessimistic.py`)
-- ------------------------------------------------------------------

/-- `src/pessimistic.py`: class `PessimisticAlgorithm` (fields of one
instance; `advertisers` is the list the instance captured at
construction — the authoritative registry list when standalone, the
cached shadow copy when `running_in_balanced`). -/
structure PessimisticAlgorithm where
  bids : BidTable
  advertisers : List Advertiser
  alpha : ℝ

/-- The eligibility test of the scan loop of
`PessimisticAlgorithm.allocate_query`:
`bid > 0 and advertiser.remaining_budget() >= bid`. -/
def pessEligible (bids : BidTable) (query : String) (a : Advertiser) : Prop :=
  0 < getBid0 bids a.name query ∧ getBid0 bids a.name query ≤ a.remaining_budget

instance (bids : BidTable) (query : String) (a : Advertiser) :
    Decidable (pessEligible bids query a) := by
  unfold pessEligible; infer_instance

/-- The score `phi_alpha(advertiser.budget_fraction(), self.alpha) * bid`
of `src/pessimistic.py` line 43. -/
noncomputable def pessScore (bids : BidTable) (alpha : ℝ) (query : String)
    (a : Advertiser) : ℝ :=
  phi_alpha (a.budget_fraction : ℝ) alpha * (getBid0 bids a.name query : ℝ)

open scoped Classical in
/-- The `for advertiser in self.advertisers` scan of
`PessimisticAlgorithm.allocate_query` (lines 38-48), with the running
`(best_advertiser, highest_score, best_bid)` accumulator.  The Python
initial value `highest_score = float('-inf')` (which every real score
strictly exceeds) is modelled by the empty accumulator `none`; the list
carries enumeration indices so that the later in-place mutation of the
winner can be expressed as a positional update. -/
noncomputable def pessFold (bids : BidTable) (alpha : ℝ) (query : String) :
    List (ℕ × Advertiser) → Option (ℕ × Advertiser × ℝ × ℚ) →
      Option (ℕ × Advertiser × ℝ × ℚ)
  | [], acc => acc
  | (i, a) :: rest, acc =>
      pessFold bids alpha query rest
        (if pessEligible bids query a then
          match acc with
          | none => some (i, a, pessScore bids alpha query a, getBid0 bids a.name query)
          | some (j, b, hs, bb) =>
            if hs < pessScore bids alpha query a then
              some (i, a, pessScore bids alpha query a, getBid0 bids a.name query)
            else some (j, b, hs, bb)
        else acc)

/-- `src/pessimistic.py`, `PessimisticAlgorithm.allocate_query`: scan all
advertisers, deduct the winner's bid, return `(winner, bid)`, else
`(None, 0)` (modelled as the inner `none`). -/
noncomputable def PessimisticAlgorithm.allocate_query
    (st : PessimisticAlgorithm) (query : String) :
    Option ((Option (Advertiser × ℚ)) × PessimisticAlgorithm) :=
  match pessFold st.bids st.alpha query st.advertisers.enum none with
  | none => some (none, st)
  | some (i, a, _, bid) =>
    match a.deduct_budget bid with
    | none => none
    | some a' => some (some (a', bid), { st with advertisers := st.advertisers.set i a' })

/-- Invariant of the scan: after processing the (indexed) prefix `seen`,
the accumulator holds the first-encountered maximal-score eligible entry
of `seen` (or `none` when no entry of `seen` is eligible). -/
def PessAccOK (bids : BidTable) (alpha : ℝ) (query : String)
    (seen : List (ℕ × Advertiser)) :
    Option (ℕ × Advertiser × ℝ × ℚ) → Prop
  | none => ∀ p ∈ seen, ¬ pessEligible bids query p.2
  | some (i, a, s, b) =>
      pessEligible bids query a ∧ s = pessScore bids alpha query a ∧
      b = getBid0 bids a.name query ∧
      ∃ pre post, seen = pre ++ (i, a) :: post ∧
        (∀ p ∈ pre, pessEligible bids query p.2 → pessScore bids alpha query p.2 < s) ∧
        (∀ p ∈ post, pessEligible bids query p.2 → pessScore bids alpha query p.2 ≤ s)

theorem pessFold_ok (bids : BidTable) (alpha : ℝ) (query : String) :
    ∀ (l seen : List (ℕ × Advertiser)) (acc : Option (ℕ × Advertiser × ℝ × ℚ)),
      PessAccOK bids alpha query seen acc →
      PessAccOK bids alpha query (seen ++ l) (pessFold bids alpha query l acc) := by
  intro l
  induction l with
  | nil => intro seen acc h; simpa using h
  | cons p rest ih =>
    rcases p with ⟨i, a⟩
    intro seen acc h
    rw [show seen ++ (i, a) :: rest = (seen ++ [(i, a)]) ++ rest by simp]
    rw [pessFold.eq_def]
    simp only []
    apply ih
    by_cases he : pessEligible bids query a
    · simp only [if_pos he]
      cases acc with
      | none =>
        refine ⟨he, rfl, rfl, seen, [], by simp, ?_, by simp⟩
        intro p hp _
        exact absurd (h p hp) (not_not.mpr ‹pessEligible bids query p.2›)
      | some t =>
        rcases t with ⟨j, b, hs, bb⟩
        obtain ⟨hbe, hbs, hbb, pre, post, hsplit, hpre, hpost⟩ := h
        by_cases hlt : hs < pessScore bids alpha query a
        · simp only [if_pos hlt]
          refine ⟨he, rfl, rfl, seen, [], by simp, ?_, by simp⟩
          intro p hp hpe
          rw [hsplit] at hp
          rcases List.mem_append.mp hp with hq1 | hq2
          · exact lt_trans (hbs ▸ hpre p hq1 hpe) hlt
          · rcases List.mem_cons.mp hq2 with hq3 | hq4
            · rw [show p.2 = b from congrArg Prod.snd hq3]
              exact hbs ▸ hlt
            · exact lt_of_le_of_lt (hbs ▸ hpost p hq4 hpe) hlt
        · simp only [if_neg hlt]
          refine ⟨hbe, hbs, hbb, pre, post ++ [(i, a)], by rw [hsplit]; simp, hpre, ?_⟩
          intro p hp hpe
          rcases List.mem_append.mp hp with hp1 | hp2
          · exact hpost p hp1 hpe
          · simp at hp2
            rw [show p.2 = a by rw [hp2]]
            exact le_of_not_lt hlt
    · simp only [if_neg he]
      cases acc with
      | none =>
        intro p hp
        rcases List.mem_append.mp hp with hp1 | hp2
        · exact h p hp1
        · simp at hp2
          rw [show p.2 = a by rw [hp2]]
          exact he
      | some t =>
        rcases t with ⟨j, b, hs, bb⟩
        obtain ⟨hbe, hbs, hbb, pre, post, hsplit, hpre, hpost⟩ := h
        refine ⟨hbe, hbs, hbb, pre, post ++ [(i, a)], by rw [hsplit]; simp, hpre, ?_⟩
        intro p hp hpe
        rcases List.mem_append.mp hp with hp1 | hp2
        · exact hpost p hp1 hpe
        · simp at hp2
          rw [show p.2 = a by rw [hp2]] at hpe
          exact absurd hpe he

theorem pessFold_enum_none {bids : BidTable} {alpha : ℝ} {query : String}
    {l : List Advertiser}
    (h : pessFold bids alpha query l.enum none = none) :
    ∀ a ∈ l, ¬ pessEligible bids query a := by
  have hok := pessFold_ok bids alpha query l.enum [] none (by intro p hp; simp at hp)
  rw [List.nil_append, h] at hok
  intro a ha
  obtain ⟨n, hn⟩ := List.getElem_of_mem ha
  have hmem : l.enum[n]? = some (n, a) := by
    rw [List.getElem?_enum, List.getElem?_eq_getElem hn.1, hn.2]
    rfl
  exact hok (n, a) (List.getElem?_mem hmem)

theorem pessFold_enum_some {bids : BidTable} {alpha : ℝ} {query : String}
    {l : List Advertiser} {i : ℕ} {a : Advertiser} {s : ℝ} {b : ℚ}
    (h : pessFold bids alpha query l.enum none = some (i, a, s, b)) :
    l[i]? = some a ∧ pessEligible bids query a ∧
      s = pessScore bids alpha query a ∧ b = getBid0 bids a.name query ∧
      ∀ j c, l[j]? = some c → pessEligible bids query c →
        (pessScore bids alpha query c ≤ s ∧ (j < i → pessScore bids alpha query c < s)) := by
  have hok := pessFold_ok bids alpha query l.enum [] none (by intro p hp; simp at hp)
  rw [List.nil_append, h] at hok
  obtain ⟨he, hs, hb, pre, post, hsplit, hpre, hpost⟩ := hok
  have hienum : l.enum[pre.length]? = some (i, a) := by
    rw [hsplit, List.getElem?_append_right (le_refl _)]
    simp
  have hi : i = pre.length ∧ l[i]? = some a := by
    rw [List.getElem?_enum] at hienum
    cases hl : l[pre.length]? with
    | none => rw [hl] at hienum; simp at hienum
    | some x =>
      rw [hl] at hienum
      simp at hienum
      refine ⟨hienum.1.symm, ?_⟩
      rw [hienum.1] at hl
      rw [hl]
      exact congrArg some hienum.2
  refine ⟨hi.2, he, hs, hb, ?_⟩
  intro j c hj hc
  have hjget : l.enum[j]? = some (j, c) := by
    rw [List.getElem?_enum, hj]
    rfl
  have hjenum : (j, c) ∈ l.enum := List.getElem?_mem hjget
  constructor
  · rw [hsplit] at hjenum
    rcases List.mem_append.mp hjenum with h1 | h2
    · exact le_of_lt (hpre (j, c) h1 hc)
    · rcases List.mem_cons.mp h2 with h3 | h4
      · rw [show c = a from congrArg Prod.snd h3]
        rw [hs]
      · exact hpost (j, c) h4 hc
  · intro hji
    have hjpre : (j, c) ∈ pre := by
      have : l.enum[j]? = some (j, c) := hjget
      rw [hsplit, List.getElem?_append_left (by rw [← hi.1]; exact hji)] at this
      exact List.getElem?_mem this
    exact hpre (j, c) hjpre hc

/-- Shared characterization of `PessimisticAlgorithm.allocate_query`:
the call never raises, returns `(None, 0)` exactly when no advertiser is
eligible, and otherwise deducts from and returns a first-encountered
maximal-score eligible advertiser together with its stored bid. -/
theorem pess_allocate_spec (st : PessimisticAlgorithm) (query : String) :
    (∃ out, st.allocate_query query = some out) ∧
    (∀ res st', st.allocate_query query = some (res, st') →
      (res = none → st' = st ∧ ∀ a ∈ st.advertisers, ¬ pessEligible st.bids query a) ∧
      (∀ a' b, res = some (a', b) →
        ∃ i a, st.advertisers[i]? = some a ∧ pessEligible st.bids query a ∧
          b = getBid0 st.bids a.name query ∧
          a' = { a with spent_budget := a.spent_budget + b } ∧
          st' = { st with advertisers := st.advertisers.set i a' } ∧
          ∀ j c, st.advertisers[j]? = some c → pessEligible st.bids query c →
            (pessScore st.bids st.alpha query c ≤ pessScore st.bids st.alpha query a ∧
              (j < i → pessScore st.bids st.alpha query c <
                pessScore st.bids st.alpha query a)))) := by
  cases hf : pessFold st.bids st.alpha query st.advertisers.enum none with
  | none =>
    have hcall : st.allocate_query query = some (none, st) := by
      unfold PessimisticAlgorithm.allocate_query
      rw [hf]
    refine ⟨⟨(none, st), hcall⟩, ?_⟩
    intro res st' h
    rw [hcall] at h
    simp at h
    refine ⟨fun _ => ⟨h.2.symm, pessFold_enum_none hf⟩, ?_⟩
    intro a' b hres
    rw [hres] at h
    exact Option.noConfusion h.1
  | some t =>
    rcases t with ⟨i, a, s, b⟩
    obtain ⟨hget, he, hs, hb, hmax⟩ := pessFold_enum_some hf
    have hd : a.deduct_budget b =
        some { a with spent_budget := a.spent_budget + b } :=
      deduct_budget_isSome (hb ▸ he.2)
    have hcall : st.allocate_query query =
        some (some ({ a with spent_budget := a.spent_budget + b }, b),
          { st with advertisers :=
              st.advertisers.set i { a with spent_budget := a.spent_budget + b } }) := by
      unfold PessimisticAlgorithm.allocate_query
      rw [hf]
      simp only [hd]
    refine ⟨⟨_, hcall⟩, ?_⟩
    intro res st' h
    rw [hcall] at h
    simp at h
    constructor
    · intro hres
      rw [hres] at h
      simp at h
    · intro a' bb hres
      rw [hres] at h
      obtain ⟨h1, h2⟩ := h
      rw [Option.some_inj, Prod.mk.injEq] at h1
      obtain ⟨ha', hbb⟩ := h1
      refine ⟨i, a, hget, he, ?_, ?_, ?_, ?_⟩
      · rw [← hbb]
        exact hb
      · rw [← hbb]
        exact ha'.symm
      · rw [← h2, ← ha']
      · intro j c hj hc
        have := hmax j c hj hc
        rw [hs] at this
        exact this

/-- **C6.** For every query, the pessimistic allocator never raises; it
returns `(None, 0)` when no advertiser has a positive bid it can afford,
and otherwise deducts the winner's bid and returns it, where the winner
is eligible (positive bid, affordable), its returned bid is its stored
bid for the query, no eligible advertiser has a strictly higher
`Ψ_α(budget_fraction) × bid` score, and every earlier-enumerated eligible
advertiser has a strictly lower score (first-wins tie-break). -/
theorem C6_pessimistic_myopically_optimal (st : PessimisticAlgorithm) (query : String) :
    (∃ out, st.allocate_query query = some out) ∧
    (∀ res st', st.allocate_query query = some (res, st') →
      (res = none → st' = st ∧ ∀ a ∈ st.advertisers, ¬ pessEligible st.bids query a) ∧
      (∀ a' b, res = some (a', b) →
        ∃ i a, st.advertisers[i]? = some a ∧ pessEligible st.bids query a ∧
          b = getBid0 st.bids a.name query ∧
          a' = { a with spent_budget := a.spent_budget + b } ∧
          st' = { st with advertisers := st.advertisers.set i a' } ∧
          ∀ j c, st.advertisers[j]? = some c → pessEligible st.bids query c →
            (pessScore st.bids st.alpha query c ≤ pessScore st.bids st.alpha query a ∧
              (j < i → pessScore st.bids st.alpha query c <
                pessScore st.bids st.alpha query a)))) :=
  pess_allocate_spec st query

/-- Witness for C6: applied to one concrete advertiser holding a bid of 5
on keyword `k1` and queried with the unknown keyword `k2`, the
characterization's `(None, 0)` branch yields that no advertiser is
eligible. -/
theorem C6_pessimistic_myopically_optimal_witness :
    ∀ a ∈ [(⟨"A1", 10, 0⟩ : Advertiser)],
      ¬ pessEligible [("A1", [("k1", 5)])] "k2" a := by
  have h := C6_pessimistic_myopically_optimal ⟨[("A1", [("k1", 5)])], [⟨"A1", 10, 0⟩], 1⟩ "k2"
  have hcall : PessimisticAlgorithm.allocate_query
      ⟨[("A1", [("k1", 5)])], [⟨"A1", 10, 0⟩], 1⟩ "k2" =
      some (none, ⟨[("A1", [("k1", 5)])], [⟨"A1", 10, 0⟩], 1⟩) := by
    unfold PessimisticAlgorithm.allocate_query
    have hfold : pessFold [("A1", [("k1", 5)])] 1 "k2" [(0, ⟨"A1", 10, 0⟩)] none = none := by
      simp +decide [pessFold, pessEligible, getBid0, List.lookup]
    simp only [List.enum]
    rw [show (List.enumFrom 0 [(⟨"A1", 10, 0⟩ : Advertiser)]) = [(0, ⟨"A1", 10, 0⟩)] by rfl]
    rw [hfold]
  exact ((h.2 none _ hcall).1 rfl).2

-- ------------------------------------------------------------------
-- Offline planning oracle (`src/optimistic.py`, OfflineMaximizationProblem)
-- ------------------------------------------------------------------

/-- Python `int(x)` truncation toward zero on a rational. -/
def truncQ (q : ℚ) : ℤ := if 0 ≤ q then ⌊q⌋ else ⌈q⌉

/-- `src/optimistic.py` line 24: `keywords = [f"k{i+1}" for i in range(self.n_keywords)]`. -/
def oracleKeywords (n : ℕ) : List String :=
  (List.range n).map (fun i => "k" ++ toString (i + 1))

/-- Update of an (insertion-ordered) Python dict entry `d[k] = v`
for a key already present. -/
def dictSetZ (d : List (String × ℤ)) (k : String) (v : ℤ) : List (String × ℤ) :=
  d.map (fun p => if p.1 = k then (k, v) else p)

/-- The mutable state of `round_solution_to_integers`: the `allocations`
matrix, the advertiser objects it deducts from (shared, via the shallow
`self.advertisers.copy()`, with the oracle's working copy), and the
`remaining_queries` dict. -/
structure RoundState where
  allocations : ℕ → ℕ → ℤ
  advertisers : List Advertiser
  remaining : List (String × ℤ)

/-- One iteration of the `for idx in fractional_indices` loop of
`round_solution_to_integers` (`src/optimistic.py` lines 85-102).
Python failure modes are `none`: an out-of-range index (`IndexError`),
a missing advertiser in the bid table (`self.bids[advertiser.name]`,
`KeyError`), a zero divisor in the float floor-division
(`ZeroDivisionError`), a missing `remaining_queries` key (`KeyError`),
and a failing `deduct_budget` (`ValueError`). -/
def roundStep (bids : BidTable) (keywords : List String) (n_advertisers : ℕ)
    (solution : ℕ → ℚ) (st : RoundState) (idx : ℕ) : Option RoundState :=
  if solution idx = 0 then some st
  else
    let advertiser_idx := idx % n_advertisers
    let keyword_idx := idx / n_advertisers
    match st.advertisers[advertiser_idx]?, keywords[keyword_idx]? with
    | some advertiser, some keyword =>
      match bids.lookup advertiser.name with
      | none => none
      | some d =>
        let bid := (d.lookup keyword).getD 1
        if bid = 0 then none
        else
          match st.remaining.lookup keyword with
          | none => none
          | some rq =>
            let max_allocation : ℤ :=
              min (min (truncQ (solution idx)) rq)
                ⌊(advertiser.initial_budget - advertiser.spent_budget) / bid⌋
            match advertiser.deduct_budget (max_allocation * bid) with
            | none => none
            | some adv' =>
              some { allocations := fun r c =>
                       if r = advertiser_idx ∧ c = keyword_idx then max_allocation
                       else st.allocations r c,
                     advertisers := st.advertisers.set advertiser_idx adv',
                     remaining := dictSetZ st.remaining keyword (rq - max_allocation) }
    | _, _ => none

/-- `sorted(range(len(self.solution)), key=lambda i: -self.solution[i])`:
a stable sort by descending solution value (`src/optimistic.py` 81-83). -/
def sortedIndices (solution : ℕ → ℚ) (n : ℕ) : List ℕ :=
  (List.range n).mergeSort (fun i j => solution j ≤ solution i)

/-- `src/optimistic.py`, `OfflineMaximizationProblem.round_solution_to_integers`:
builds `remaining_queries` from `predicted_queries` over the canonical
keywords (`KeyError` when a keyword is missing) and runs the rounding
loop over the value-sorted variable indices, starting from a zero
`allocations` matrix. -/
def round_solution_to_integers (bids : BidTable)
    (predicted_queries : List (String × ℤ)) (advertisers : List Advertiser)
    (n_advertisers : ℕ) (keywords : List String) (solution : ℕ → ℚ)
    (n_vars : ℕ) : Option RoundState := do
  let remaining ← keywords.mapM
    (fun k => (predicted_queries.lookup k).map (fun v => (k, v)))
  (sortedIndices solution n_vars).foldlM
    (roundStep bids keywords n_advertisers solution)
    ⟨fun _ _ => 0, advertisers, remaining⟩

/-- `src/optimistic.py`, `OfflineMaximizationProblem.solve_allocation`.
The scipy `linprog` call is external code; it is modelled by the
`solution` parameter (its output on the successful branch — the
unsuccessful branch raises, i.e. no `RoundState` is ever produced).
Building `b_ub` indexes `self.predicted_queries[keyword]` for every
canonical keyword and raises `KeyError` (modelled `none`) when one is
missing. -/
def solve_allocation (n_keywords : ℕ) (bids : BidTable)
    (advertisers : List Advertiser) (predicted_queries : List (String × ℤ))
    (solution : ℕ → ℚ) : Option RoundState := do
  let keywords := oracleKeywords n_keywords
  let _ ← keywords.mapM (fun k => predicted_queries.lookup k)
  round_solution_to_integers bids predicted_queries advertisers
    advertisers.length keywords solution (advertisers.length * n_keywords)

-- ------------------------------------------------------------------
-- Registry (`src/advertiser.py` class-level state)
-- ------------------------------------------------------------------

/-- The class-level state of `Advertiser`: the authoritative
`Advertiser.advertisers` list and the `_advertiser_list_copy` cache. -/
structure Registry where
  advertisers : List Advertiser
  copyCache : Option (List Advertiser)

/-- `Advertiser.get_advertiser_list_copy`: returns the cached copy,
deep-copying the authoritative list first when the cache is empty.
The returned list aliases the cache. -/
def Registry.get_advertiser_list_copy (r : Registry) :
    List Advertiser × Registry :=
  match r.copyCache with
  | some c => (c, r)
  | none => (r.advertisers, { r with copyCache := some r.advertisers })

/-- `Advertiser.reset_advertiser_list_copy`: replaces the cache with a
fresh deep copy of the authoritative list. -/
def Registry.reset_advertiser_list_copy (r : Registry) : Registry :=
  { r with copyCache := some r.advertisers }

-- ------------------------------------------------------------------
-- Optimistic allocator (`src/optimistic.py`, OptimisticAlgorithm)
-- ------------------------------------------------------------------

/-- `src/optimistic.py`: class `OptimisticAlgorithm` (fields of one
instance). -/
structure OptimisticAlgorithm where
  remaining_queries : List (String × ℤ)
  offline_allocations : ℕ → ℕ → ℤ
  advertisers : List Advertiser
  bids : BidTable
  keywords : List String

/-- The two scan loops of `OptimisticAlgorithm.allocate_query` (lines
153-168), fused: advertisers whose plan cell for `keyword_idx` is
positive are the `assigned_advertisers`; among them the highest bidder
that can afford its bid is kept (`bid > highest_bid`, initialised to
`-1`, modelled by the `-1` default of the empty accumulator).  The bid
lookup `self.bids[advertiser.name]` raises `KeyError` (`none`) for a
name missing from the table.  The accumulator carries the enumeration
index, which equals the later `self.advertisers.index(...)` because
Python resolves `index` by object identity on distinct objects. -/
def optScanStep (bids : BidTable) (query : String) (plan : ℕ → ℕ → ℤ)
    (keyword_idx : ℕ) (i : ℕ) (a : Advertiser)
    (acc : Option (ℕ × Advertiser × ℚ)) :
    Option (Option (ℕ × Advertiser × ℚ)) :=
  if 0 < plan i keyword_idx then
    match bids.lookup a.name with
    | none => none
    | some d =>
      let bid := (d.lookup query).getD 0
      some (if bid ≤ a.remaining_budget ∧
          (match acc with
           | none => (-1 : ℚ)
           | some (_, _, hb) => hb) < bid then
        some (i, a, bid)
      else acc)
  else some acc

def optFold (bids : BidTable) (query : String) (plan : ℕ → ℕ → ℤ)
    (keyword_idx : ℕ) :
    List (ℕ × Advertiser) → Option (ℕ × Advertiser × ℚ) →
      Option (Option (ℕ × Advertiser × ℚ))
  | [], acc => some acc
  | (i, a) :: rest, acc =>
    match optScanStep bids query plan keyword_idx i a acc with
    | none => none
    | some acc2 => optFold bids query plan keyword_idx rest acc2

/-- `src/optimistic.py`, `OptimisticAlgorithm.allocate_query`. -/
def OptimisticAlgorithm.allocate_query (st : OptimisticAlgorithm)
    (query : String) :
    Option ((Option (Advertiser × ℚ)) × OptimisticAlgorithm) :=
  if (st.remaining_queries.lookup query).getD 0 ≤ 0 then some (none, st)
  else if query ∈ st.keywords then
    let keyword_idx := st.keywords.indexOf query
    match optFold st.bids query st.offline_allocations keyword_idx
        st.advertisers.enum none with
    | none => none
    | some none => some (none, st)
    | some (some (i, a, bid)) =>
      match a.deduct_budget bid with
      | none => none
      | some a' =>
        some (some (a', bid),
          { st with
            offline_allocations := fun r c =>
              if r = i ∧ c = keyword_idx then st.offline_allocations r c - 1
              else st.offline_allocations r c,
            advertisers := st.advertisers.set i a',
            remaining_queries := dictSetZ st.remaining_queries query
              ((st.remaining_queries.lookup query).getD 0 - 1) })
  else some (none, st)

/-- `src/optimistic.py`, `OptimisticAlgorithm.__init__`: solves the
offline problem on `Advertiser.get_advertiser_list_copy()` (the shared
cache, created on demand), whose advertiser objects the rounding phase
mutates in place — hence the cache afterwards holds the mutated
objects; then captures either that same cached list
(`running_in_balanced`) or the authoritative list as `self.advertisers`. -/
def OptimisticAlgorithm.construct (n_keywords : ℕ) (bids : BidTable)
    (predicted_queries : List (String × ℤ)) (solution : ℕ → ℚ)
    (running_in_balanced : Bool) (r : Registry) :
    Option (OptimisticAlgorithm × Registry) :=
  let wcr := r.get_advertiser_list_copy
  match solve_allocation n_keywords bids wcr.1 predicted_queries solution with
  | none => none
  | some oracleResult =>
    let r2 := { wcr.2 with copyCache := some oracleResult.advertisers }
    some ({ remaining_queries := predicted_queries,
            offline_allocations := oracleResult.allocations,
            advertisers := if running_in_balanced then oracleResult.advertisers
                           else r2.advertisers,
            bids := bids,
            keywords := predicted_queries.map Prod.fst }, r2)

-- ------------------------------------------------------------------
-- Balanced hybrid allocator (`src/balanced.py`)
-- ------------------------------------------------------------------

/-- `src/balanced.py`: class `BalancedAlgorithm` together with the
class-level `Advertiser` state it interacts with: the authoritative
list, the copy cache, the two sub-allocators (whose `advertisers`
fields alias one shared shadow list), `alpha` and the two branch
counters `self.allocations = [o, p]`. -/
structure BalancedState where
  auth : List Advertiser
  cache : Option (List Advertiser)
  opt : OptimisticAlgorithm
  pess : PessimisticAlgorithm
  alpha : ℝ
  allocO : ℕ
  allocP : ℕ

/-- `src/balanced.py` lines 43-51: map a shadow candidate back to the
authoritative advertiser of the same name,
`[adv for adv in Advertiser.get_advertisers() if adv.name == ...][0]`
(`IndexError`, modelled `none`, when no authoritative advertiser
matches); the enumeration index of the first match is kept so that the
final in-place deduction can be expressed positionally. -/
def matchAuthoritative (auth : List Advertiser) :
    Option (Advertiser × ℚ) → Option (Option (ℕ × Advertiser × ℚ))
  | none => some none
  | some (a, b) =>
    match auth.enum.find? (fun p => p.2.name == a.name) with
    | none => none
    | some (i, adv) => some (some (i, adv, b))

open scoped Classical in
/-- `src/balanced.py`, `BalancedAlgorithm.allocate_query`.  The opening
`Advertiser.reset_advertiser_list_copy()` replaces the registry cache
with a fresh copy of the authoritative list, but the two sub-allocators
keep operating on the shadow list they captured at construction (the
`advertisers` attribute of each is a reference fixed in `__init__`).
Both sub-allocators share one shadow list object, so the pessimistic
scan runs on the list the optimistic call just mutated.  The final
decision `self.alpha * o_score >= p_score` is written out per
candidate-presence case, evaluating Python's `float('-inf')`
arithmetic for `alpha > 0`: a sole optimistic candidate always wins
(`finite ≥ -inf`), a sole pessimistic candidate always wins
(`alpha * -inf = -inf` is not `≥` a finite score). -/
noncomputable def balancedAllocate (st : BalancedState) (query : String) :
    Option ((Option (Advertiser × ℚ)) × BalancedState) :=
  let cache' := some st.auth
  match st.opt.allocate_query query with
  | none => none
  | some (o_copy, opt') =>
    match PessimisticAlgorithm.allocate_query
        ⟨st.pess.bids, opt'.advertisers, st.pess.alpha⟩ query with
    | none => none
    | some (p_copy, pess') =>
      match matchAuthoritative st.auth o_copy with
      | none => none
      | some oM =>
        match matchAuthoritative st.auth p_copy with
        | none => none
        | some pM =>
          let commit := fun (t : ℕ × Advertiser × ℚ) (isO : Bool) =>
            match t.2.1.deduct_budget t.2.2 with
            | none => none
            | some adv' =>
              some (some (adv', t.2.2),
                { st with
                  auth := st.auth.set t.1 adv',
                  cache := cache',
                  opt := { opt' with advertisers := pess'.advertisers },
                  pess := pess',
                  allocO := st.allocO + (if isO then 1 else 0),
                  allocP := st.allocP + (if isO then 0 else 1) })
          match oM, pM with
          | none, none =>
            some (none,
              { st with
                cache := cache',
                opt := { opt' with advertisers := pess'.advertisers },
                pess := pess' })
          | some o, none => commit o true
          | none, some p => commit p false
          | some o, some p =>
            if phi_alpha (p.2.1.budget_fraction : ℝ) st.alpha * (p.2.2 : ℝ) ≤
                st.alpha *
                  (phi_alpha (o.2.1.budget_fraction : ℝ) st.alpha * (o.2.2 : ℝ)) then
              commit o true
            else commit p false

/-- `src/balanced.py`, `BalancedAlgorithm.__init__`: constructs the
optimistic sub-allocator (which solves and rounds the offline problem
on the shared cached copy) and the pessimistic sub-allocator (whose
`advertisers` is `Advertiser.get_advertiser_list_copy()` — the same
cached list object). -/
def balancedConstruct (n_keywords : ℕ) (bids : BidTable)
    (predicted_queries : List (String × ℤ)) (solution : ℕ → ℚ)
    (alpha : ℝ) (r : Registry) : Option BalancedState :=
  match OptimisticAlgorithm.construct n_keywords bids predicted_queries
      solution true r with
  | none => none
  | some (opt, r1) =>
    let pcr := r1.get_advertiser_list_copy
    some { auth := pcr.2.advertisers, cache := pcr.2.copyCache,
           opt := opt, pess := ⟨bids, pcr.1, alpha⟩, alpha := alpha,
           allocO := 0, allocP := 0 }

-- ------------------------------------------------------------------
-- Characterization of the optimistic allocator's per-query effect
-- ------------------------------------------------------------------

/-- Invariant of the optimistic scan: a selected accumulator entry is a
scanned advertiser able to afford its stored bid for the query. -/
def OptAccOK (bids : BidTable) (query : String)
    (seen : List (ℕ × Advertiser)) : Option (ℕ × Advertiser × ℚ) → Prop
  | none => True
  | some (i, a, bid) => (i, a) ∈ seen ∧ bid ≤ a.remaining_budget ∧
      ∃ d, bids.lookup a.name = some d ∧ bid = (d.lookup query).getD 0

theorem optFold_ok (bids : BidTable) (query : String) (plan : ℕ → ℕ → ℤ)
    (kidx : ℕ) :
    ∀ (l seen : List (ℕ × Advertiser)) (acc : Option (ℕ × Advertiser × ℚ)),
      OptAccOK bids query seen acc →
      ∀ accR, optFold bids query plan kidx l acc = some accR →
        OptAccOK bids query (seen ++ l) accR := by
  intro l
  induction l with
  | nil =>
    intro seen acc hacc accR h
    rw [optFold, Option.some_inj] at h
    rw [← h]
    simpa using hacc
  | cons p rest ih =>
    rcases p with ⟨i, a⟩
    intro seen acc hacc accR h
    rw [optFold] at h
    rw [show seen ++ (i, a) :: rest = (seen ++ [(i, a)]) ++ rest by simp]
    cases hstep : optScanStep bids query plan kidx i a acc with
    | none => rw [hstep] at h; exact Option.noConfusion h
    | some acc2 =>
      rw [hstep] at h
      simp only [] at h
      apply ih (seen ++ [(i, a)]) acc2 _ accR h
      unfold optScanStep at hstep
      by_cases hplan : 0 < plan i kidx
      · rw [if_pos hplan] at hstep
        cases hbl : bids.lookup a.name with
        | none => rw [hbl] at hstep; exact Option.noConfusion hstep
        | some d =>
          rw [hbl] at hstep
          simp only [Option.some_inj] at hstep
          split at hstep
          · rename_i hcond
            rw [← hstep]
            exact ⟨by simp, hcond.1, d, hbl, rfl⟩
          · rw [← hstep]
            cases acc with
            | none => trivial
            | some t =>
              rcases t with ⟨j, b, bb⟩
              obtain ⟨hmem, hrem, hd⟩ := hacc
              exact ⟨List.mem_append_left _ hmem, hrem, hd⟩
      · rw [if_neg hplan, Option.some_inj] at hstep
        rw [← hstep]
        cases acc with
        | none => trivial
        | some t =>
          rcases t with ⟨j, b, bb⟩
          obtain ⟨hmem, hrem, hd⟩ := hacc
          exact ⟨List.mem_append_left _ hmem, hrem, hd⟩

theorem optFold_total (bids : BidTable) (query : String) (plan : ℕ → ℕ → ℤ)
    (kidx : ℕ) :
    ∀ (l : List (ℕ × Advertiser)) (acc : Option (ℕ × Advertiser × ℚ)),
      (∀ p ∈ l, (bids.lookup p.2.name).isSome) →
      (optFold bids query plan kidx l acc).isSome := by
  intro l
  induction l with
  | nil => intro acc _; rw [optFold]; rfl
  | cons p rest ih =>
    rcases p with ⟨i, a⟩
    intro acc hl
    rw [optFold]
    cases hstep : optScanStep bids query plan kidx i a acc with
    | none =>
      exfalso
      unfold optScanStep at hstep
      by_cases hplan : 0 < plan i kidx
      · rw [if_pos hplan] at hstep
        cases hbl : bids.lookup a.name with
        | none =>
          have := hl (i, a) (List.mem_cons_self _ _)
          rw [hbl] at this
          exact absurd this (by simp)
        | some d =>
          rw [hbl] at hstep
          exact Option.noConfusion hstep
      · rw [if_neg hplan] at hstep
        exact Option.noConfusion hstep
    | some acc2 =>
      exact ih acc2 (fun p hp => hl p (List.mem_cons_of_mem _ hp))

/-- Shared characterization of `OptimisticAlgorithm.allocate_query`'s
effect on its advertiser list: a completed call either changes nothing
and returns `(None, 0)`, or applies exactly one successful deduction of
an affordable stored bid; and the call never raises when every
advertiser's name is present in the bid table. -/
theorem opt_allocate_spec (st : OptimisticAlgorithm) (query : String) :
    (∀ res st', st.allocate_query query = some (res, st') →
      (res = none → st' = st) ∧
      (∀ a' b, res = some (a', b) →
        ∃ i pre, st.advertisers[i]? = some pre ∧
          b ≤ pre.remaining_budget ∧
          (∃ d, st.bids.lookup pre.name = some d ∧
            b = (d.lookup query).getD 0) ∧
          a' = { pre with spent_budget := pre.spent_budget + b } ∧
          st'.advertisers = st.advertisers.set i a' ∧
          st'.bids = st.bids)) ∧
    ((∀ a ∈ st.advertisers, (st.bids.lookup a.name).isSome) →
      st.allocate_query query ≠ none) := by
  have hnone1 : ∀ (hcall : st.allocate_query query = some (none, st)),
      (∀ res st', st.allocate_query query = some (res, st') →
        (res = none → st' = st) ∧
        (∀ a' b, res = some (a', b) →
          ∃ i pre, st.advertisers[i]? = some pre ∧
            b ≤ pre.remaining_budget ∧
            (∃ d, st.bids.lookup pre.name = some d ∧
              b = (d.lookup query).getD 0) ∧
            a' = { pre with spent_budget := pre.spent_budget + b } ∧
            st'.advertisers = st.advertisers.set i a' ∧
            st'.bids = st.bids)) ∧
      ((∀ a ∈ st.advertisers, (st.bids.lookup a.name).isSome) →
        st.allocate_query query ≠ none) := by
    intro hcall
    constructor
    · intro res st' h
      rw [hcall, Option.some_inj, Prod.mk.injEq] at h
      refine ⟨fun _ => h.2.symm, ?_⟩
      intro a' b hres
      rw [hres] at h
      exact absurd h.1.symm (by simp)
    · intro _
      rw [hcall]
      simp
  by_cases h1 : (st.remaining_queries.lookup query).getD 0 ≤ 0
  · apply hnone1
    unfold OptimisticAlgorithm.allocate_query
    rw [if_pos h1]
  · by_cases h2 : query ∈ st.keywords
    · cases hf : optFold st.bids query st.offline_allocations
          (st.keywords.indexOf query) st.advertisers.enum none with
      | none =>
        have hcall : st.allocate_query query = none := by
          unfold OptimisticAlgorithm.allocate_query
          rw [if_neg h1, if_pos h2]
          simp only []
          rw [hf]
        refine ⟨?_, ?_⟩
        · intro res st' h
          rw [hcall] at h
          exact Option.noConfusion h
        · intro hnames
          have htot := optFold_total st.bids query st.offline_allocations
            (st.keywords.indexOf query) st.advertisers.enum none
            (fun p hp => by
              have hmem : p.2 ∈ st.advertisers :=
                List.getElem?_mem (List.mem_enum_iff_getElem?.mp hp)
              exact hnames p.2 hmem)
          rw [hf] at htot
          exact absurd htot (by simp)
      | some accR =>
        cases accR with
        | none =>
          apply hnone1
          unfold OptimisticAlgorithm.allocate_query
          rw [if_neg h1, if_pos h2]
          simp only []
          rw [hf]
        | some t =>
          rcases t with ⟨i, a, bid⟩
          have hok := optFold_ok st.bids query st.offline_allocations
            (st.keywords.indexOf query) st.advertisers.enum [] none trivial
            (some (i, a, bid)) hf
          rw [List.nil_append] at hok
          obtain ⟨hmem, hrem, d, hdl, hbid⟩ := hok
          have hget : st.advertisers[i]? = some a :=
            List.mem_enum_iff_getElem?.mp hmem
          have hded : a.deduct_budget bid =
              some { a with spent_budget := a.spent_budget + bid } :=
            deduct_budget_isSome hrem
          have hcall : st.allocate_query query =
              some (some ({ a with spent_budget := a.spent_budget + bid }, bid),
                { st with
                  offline_allocations := fun r c =>
                    if r = i ∧ c = st.keywords.indexOf query then
                      st.offline_allocations r c - 1
                    else st.offline_allocations r c,
                  advertisers := st.advertisers.set i
                    { a with spent_budget := a.spent_budget + bid },
                  remaining_queries := dictSetZ st.remaining_queries query
                    ((st.remaining_queries.lookup query).getD 0 - 1) }) := by
            unfold OptimisticAlgorithm.allocate_query
            rw [if_neg h1, if_pos h2]
            simp only []
            rw [hf]
            simp only [hded]
          refine ⟨?_, fun _ => by rw [hcall]; simp⟩
          intro res st' h
          rw [hcall, Option.some_inj, Prod.mk.injEq] at h
          refine ⟨?_, ?_⟩
          · intro hres
            rw [hres] at h
            exact absurd h.1.symm (by simp)
          · intro a' b hres
            rw [hres] at h
            have h1' := h.1
            rw [Option.some_inj, Prod.mk.injEq] at h1'
            refine ⟨i, a, hget, ?_, ⟨d, hdl, ?_⟩, ?_, ?_, ?_⟩
            · rw [← h1'.2]; exact hrem
            · rw [← h1'.2]; exact hbid
            · rw [← h1'.1, ← h1'.2]
            · rw [← h.2, ← h1'.1]
            · rw [← h.2]
    · apply hnone1
      unfold OptimisticAlgorithm.allocate_query
      rw [if_neg h1, if_neg h2]


-- ------------------------------------------------------------------
-- C4 — the balanced allocator deducts at most once from the ledger
-- ------------------------------------------------------------------

theorem matchAuthoritative_spec (auth : List Advertiser) :
    ∀ (oc : Option (Advertiser × ℚ)) (r : Option (ℕ × Advertiser × ℚ)),
      matchAuthoritative auth oc = some r →
      (r = none → oc = none) ∧
      (∀ i adv b, r = some (i, adv, b) →
        auth[i]? = some adv ∧ ∃ a0, oc = some (a0, b) ∧ adv.name = a0.name) := by
  intro oc r h
  cases oc with
  | none =>
    rw [matchAuthoritative, Option.some_inj] at h
    refine ⟨fun _ => rfl, ?_⟩
    intro i adv b hr
    rw [hr] at h
    exact Option.noConfusion h
  | some t =>
    rcases t with ⟨a0, b0⟩
    rw [matchAuthoritative] at h
    cases hfind : auth.enum.find? (fun p => p.2.name == a0.name) with
    | none => rw [hfind] at h; exact Option.noConfusion h
    | some q =>
      rcases q with ⟨i0, adv0⟩
      rw [hfind] at h
      rw [Option.some_inj] at h
      refine ⟨?_, ?_⟩
      · intro hr
        rw [hr] at h
        exact Option.noConfusion h
      · intro i adv b hr
        rw [hr, Option.some_inj] at h
        rw [Prod.mk.injEq, Prod.mk.injEq] at h
        obtain ⟨h1, h2, h3⟩ := h
        subst h1
        subst h2
        subst h3
        have hpmem := List.mem_of_find?_eq_some hfind
        have hptrue := List.find?_some hfind
        exact ⟨List.mem_enum_iff_getElem?.mp hpmem, a0, rfl,
          beq_iff_eq.mp hptrue⟩

theorem matchAuthoritative_total (auth : List Advertiser)
    (oc : Option (Advertiser × ℚ))
    (h : ∀ a0 b0, oc = some (a0, b0) → ∃ c ∈ auth, c.name = a0.name) :
    (matchAuthoritative auth oc).isSome := by
  cases oc with
  | none => rw [matchAuthoritative]; rfl
  | some t =>
    rcases t with ⟨a0, b0⟩
    rw [matchAuthoritative]
    obtain ⟨c, hc, hcname⟩ := h a0 b0 rfl
    obtain ⟨j, hj⟩ : ∃ j : ℕ, auth[j]? = some c := by
      obtain ⟨n, hn⟩ := List.getElem_of_mem hc
      exact ⟨n, by rw [List.getElem?_eq_getElem hn.1, hn.2]⟩
    have hfind : (auth.enum.find? (fun p => p.2.name == a0.name)).isSome := by
      rw [List.find?_isSome]
      exact ⟨(j, c), List.mem_enum_iff_getElem?.mpr hj, beq_iff_eq.mpr hcname⟩
    cases hf2 : auth.enum.find? (fun p => p.2.name == a0.name) with
    | none => rw [hf2] at hfind; exact absurd hfind (by simp)
    | some q => rcases q with ⟨i0, adv0⟩; rfl

/-- The per-query effect of the balanced allocator: a completed call runs
the optimistic sub-allocator, then the pessimistic one, keeps the
pessimistic result state, and then either — both sub-strategies returned
no candidate — returns `(None, 0)` with the authoritative list untouched,
or — some sub-strategy returned a candidate — applies exactly one
successful `deduct_budget`, to the authoritative advertiser matched by
name to the winning candidate `w`, for `w`'s bid, and returns that
advertiser with the bid.  The winner is the sole candidate when only one
sub-strategy produced one, and when both did it is decided by the
source's `self.alpha * o_score >= p_score` over the name-matched
authoritative advertisers. -/
theorem balanced_allocate_effect (st : BalancedState) (query : String) :
    ∀ res st', balancedAllocate st query = some (res, st') →
      ∃ oc opt' pc pess',
        st.opt.allocate_query query = some (oc, opt') ∧
        PessimisticAlgorithm.allocate_query
          ⟨st.pess.bids, opt'.advertisers, st.pess.alpha⟩ query =
            some (pc, pess') ∧
        st'.pess = pess' ∧
        ((oc = none ∧ pc = none ∧ res = none ∧ st'.auth = st.auth) ∨
          (∃ i adv b adv' w,
            st.auth[i]? = some adv ∧
            adv.deduct_budget b = some adv' ∧
            res = some (adv', b) ∧
            st'.auth = st.auth.set i adv' ∧
            (oc = some (w, b) ∨ pc = some (w, b)) ∧
            adv.name = w.name ∧
            (pc = none → oc = some (w, b)) ∧
            (oc = none → pc = some (w, b)) ∧
            (∀ io advo bo ip advp bp,
              matchAuthoritative st.auth oc = some (some (io, advo, bo)) →
              matchAuthoritative st.auth pc = some (some (ip, advp, bp)) →
              (phi_alpha (advp.budget_fraction : ℝ) st.alpha * (bp : ℝ) ≤
                  st.alpha * (phi_alpha (advo.budget_fraction : ℝ)
                    st.alpha * (bo : ℝ)) →
                oc = some (w, b) ∧ i = io ∧ adv = advo) ∧
              (¬(phi_alpha (advp.budget_fraction : ℝ) st.alpha * (bp : ℝ) ≤
                  st.alpha * (phi_alpha (advo.budget_fraction : ℝ)
                    st.alpha * (bo : ℝ))) →
                pc = some (w, b) ∧ i = ip ∧ adv = advp)) ∧
            (BidsNonneg st.opt.bids → 0 ≤ b))) := by
  intro res st' h
  unfold balancedAllocate at h
  simp only [] at h
  cases ho : st.opt.allocate_query query with
  | none => rw [ho] at h; exact Option.noConfusion h
  | some oo =>
    rcases oo with ⟨o_copy, opt'⟩
    rw [ho] at h
    simp only [] at h
    cases hp : PessimisticAlgorithm.allocate_query
        ⟨st.pess.bids, opt'.advertisers, st.pess.alpha⟩ query with
    | none => rw [hp] at h; exact Option.noConfusion h
    | some pp =>
      rcases pp with ⟨p_copy, pess'⟩
      rw [hp] at h
      simp only [] at h
      have hobid : ∀ a0 b0, o_copy = some (a0, b0) →
          BidsNonneg st.opt.bids → 0 ≤ b0 := by
        intro a0 b0 hoc hbn
        obtain ⟨i, pre, _, _, ⟨d, hdl, hb0⟩, _, _, _⟩ :=
          ((opt_allocate_spec st.opt query).1 o_copy opt' ho).2 a0 b0 hoc
        rw [hb0]
        cases hv : d.lookup query with
        | none => simp [hv]
        | some v =>
          simp only [hv, Option.getD_some]
          exact hbn _ (lookup_mem hdl) _ (lookup_mem hv)
      have hpbid : ∀ a0 b0, p_copy = some (a0, b0) → 0 ≤ b0 := by
        intro a0 b0 hpc
        obtain ⟨i, pre, _, helig, hb, _, _, _⟩ :=
          ((pess_allocate_spec
            ⟨st.pess.bids, opt'.advertisers, st.pess.alpha⟩ query).2
            p_copy pess' hp).2 a0 b0 hpc
        rw [hb]
        exact le_of_lt helig.1
      cases hmo : matchAuthoritative st.auth o_copy with
      | none => rw [hmo] at h; exact Option.noConfusion h
      | some oM =>
        rw [hmo] at h
        simp only [] at h
        cases hmp : matchAuthoritative st.auth p_copy with
        | none => rw [hmp] at h; exact Option.noConfusion h
        | some pM =>
          rw [hmp] at h
          simp only [] at h
          have hcommit : ∀ (t : ℕ × Advertiser × ℚ) (isO : Bool),
              (match t.2.1.deduct_budget t.2.2 with
                | none => none
                | some adv' =>
                  some (some (adv', t.2.2),
                    { st with
                      auth := st.auth.set t.1 adv',
                      cache := some st.auth,
                      opt := { opt' with advertisers := pess'.advertisers },
                      pess := pess',
                      allocO := st.allocO + (if isO then 1 else 0),
                      allocP := st.allocP + (if isO then 0 else 1) })) =
                some (res, st') →
              ∃ adv', t.2.1.deduct_budget t.2.2 = some adv' ∧
                res = some (adv', t.2.2) ∧
                st'.auth = st.auth.set t.1 adv' ∧ st'.pess = pess' := by
            intro t isO hm
            cases hd : t.2.1.deduct_budget t.2.2 with
            | none => rw [hd] at hm; exact Option.noConfusion hm
            | some adv' =>
              rw [hd] at hm
              rw [Option.some_inj, Prod.mk.injEq] at hm
              exact ⟨adv', rfl, hm.1.symm, by rw [← hm.2], by rw [← hm.2]⟩
          cases oM with
          | none =>
            have hocn : o_copy = none :=
              (matchAuthoritative_spec st.auth o_copy _ hmo).1 rfl
            cases pM with
            | none =>
              simp only [] at h
              rw [Option.some_inj, Prod.mk.injEq] at h
              have hpcn : p_copy = none :=
                (matchAuthoritative_spec st.auth p_copy _ hmp).1 rfl
              exact ⟨o_copy, opt', p_copy, pess', rfl, hp, by rw [← h.2],
                Or.inl ⟨hocn, hpcn, h.1.symm, by rw [← h.2]⟩⟩
            | some p =>
              rcases p with ⟨ip, advp, bp⟩
              simp only [] at h
              have hpspec := (matchAuthoritative_spec st.auth p_copy _ hmp).2
                ip advp bp rfl
              obtain ⟨a0p, hpc, hnamep⟩ := hpspec.2
              obtain ⟨adv', hd, hres, hset, hpe⟩ := hcommit (ip, advp, bp) false h
              refine ⟨o_copy, opt', p_copy, pess', rfl, hp, hpe, Or.inr ?_⟩
              refine ⟨ip, advp, bp, adv', a0p, hpspec.1, hd, hres, hset,
                Or.inr hpc, hnamep, ?_, fun _ => hpc, ?_,
                fun _ => hpbid a0p bp hpc⟩
              · intro hn; rw [hn] at hpc; exact Option.noConfusion hpc
              · intro io advo bo ip' advp' bp' h1 _
                rw [hmo, Option.some_inj] at h1
                exact Option.noConfusion h1
          | some o =>
            rcases o with ⟨io, advo, bo⟩
            have hospec := (matchAuthoritative_spec st.auth o_copy _ hmo).2
              io advo bo rfl
            obtain ⟨a0o, hoc, hnameo⟩ := hospec.2
            cases pM with
            | none =>
              simp only [] at h
              have hpcn : p_copy = none :=
                (matchAuthoritative_spec st.auth p_copy _ hmp).1 rfl
              obtain ⟨adv', hd, hres, hset, hpe⟩ := hcommit (io, advo, bo) true h
              refine ⟨o_copy, opt', p_copy, pess', rfl, hp, hpe, Or.inr ?_⟩
              refine ⟨io, advo, bo, adv', a0o, hospec.1, hd, hres, hset,
                Or.inl hoc, hnameo, fun _ => hoc, ?_, ?_,
                fun hbn => hobid a0o bo hoc hbn⟩
              · intro hn; rw [hn] at hoc; exact Option.noConfusion hoc
              · intro io' advo' bo' ip' advp' bp' _ h2
                rw [hmp, Option.some_inj] at h2
                exact Option.noConfusion h2
            | some p =>
              rcases p with ⟨ip, advp, bp⟩
              simp only [] at h
              have hpspec := (matchAuthoritative_spec st.auth p_copy _ hmp).2
                ip advp bp rfl
              obtain ⟨a0p, hpc, hnamep⟩ := hpspec.2
              split at h
              · rename_i hcond
                obtain ⟨adv', hd, hres, hset, hpe⟩ :=
                  hcommit (io, advo, bo) true h
                refine ⟨o_copy, opt', p_copy, pess', rfl, hp, hpe, Or.inr ?_⟩
                refine ⟨io, advo, bo, adv', a0o, hospec.1, hd, hres, hset,
                  Or.inl hoc, hnameo, ?_, ?_, ?_,
                  fun hbn => hobid a0o bo hoc hbn⟩
                · intro hn; rw [hn] at hpc; exact Option.noConfusion hpc
                · intro hn; rw [hn] at hoc; exact Option.noConfusion hoc
                · intro io' advo' bo' ip' advp' bp' h1 h2
                  rw [hmo, Option.some_inj, Option.some_inj, Prod.mk.injEq,
                    Prod.mk.injEq] at h1
                  rw [hmp, Option.some_inj, Option.some_inj, Prod.mk.injEq,
                    Prod.mk.injEq] at h2
                  obtain ⟨he1, he2, he3⟩ := h1
                  obtain ⟨hf1, hf2, hf3⟩ := h2
                  subst he1; subst he2; subst he3
                  subst hf1; subst hf2; subst hf3
                  exact ⟨fun _ => ⟨hoc, rfl, rfl⟩, fun hn => absurd hcond hn⟩
              · rename_i hcond
                obtain ⟨adv', hd, hres, hset, hpe⟩ :=
                  hcommit (ip, advp, bp) false h
                refine ⟨o_copy, opt', p_copy, pess', rfl, hp, hpe, Or.inr ?_⟩
                refine ⟨ip, advp, bp, adv', a0p, hpspec.1, hd, hres, hset,
                  Or.inr hpc, hnamep, ?_, ?_, ?_,
                  fun _ => hpbid a0p bp hpc⟩
                · intro hn; rw [hn] at hpc; exact Option.noConfusion hpc
                · intro hn; rw [hn] at hoc; exact Option.noConfusion hoc
                · intro io' advo' bo' ip' advp' bp' h1 h2
                  rw [hmo, Option.some_inj, Option.some_inj, Prod.mk.injEq,
                    Prod.mk.injEq] at h1
                  rw [hmp, Option.some_inj, Option.some_inj, Prod.mk.injEq,
                    Prod.mk.injEq] at h2
                  obtain ⟨he1, he2, he3⟩ := h1
                  obtain ⟨hf1, hf2, hf3⟩ := h2
                  subst he1; subst he2; subst he3
                  subst hf1; subst hf2; subst hf3
                  exact ⟨fun hcontra => absurd hcontra hcond,
                    fun _ => ⟨hpc, rfl, rfl⟩⟩

/-- Completion of the balanced allocator's per-query call: when every
shadow advertiser's name is in the bid table and occurs in the
authoritative ledger, and the authoritative spend never exceeds the
shadow spend of a like-named advertiser (which construction establishes
and every query preserves), the call raises no exception. -/
theorem balanced_allocate_total (st : BalancedState) (query : String)
    (hbids : ∀ a ∈ st.opt.advertisers, (st.opt.bids.lookup a.name).isSome)
    (hnm : ∀ a ∈ st.opt.advertisers, ∃ c ∈ st.auth, c.name = a.name)
    (hdrift : ∀ c ∈ st.auth, ∀ a ∈ st.opt.advertisers, c.name = a.name →
      c.spent_budget ≤ a.spent_budget ∧ c.initial_budget = a.initial_budget)
    (hbn : BidsNonneg st.opt.bids) :
    balancedAllocate st query ≠ none := by
  intro hcontra
  unfold balancedAllocate at hcontra
  simp only [] at hcontra
  have ospec := opt_allocate_spec st.opt query
  cases ho : st.opt.allocate_query query with
  | none => exact (ospec.2 hbids) ho
  | some oo =>
    rcases oo with ⟨o_copy, opt'⟩
    rw [ho] at hcontra
    simp only [] at hcontra
    have hoeff := ospec.1 o_copy opt' ho
    have hshadow' : ∀ x ∈ opt'.advertisers,
        (∃ c ∈ st.auth, c.name = x.name) ∧
        (∀ c ∈ st.auth, c.name = x.name →
          c.spent_budget ≤ x.spent_budget ∧
            c.initial_budget = x.initial_budget) := by
      cases hoc : o_copy with
      | none =>
        have heq := hoeff.1 hoc
        rw [heq]
        intro x hx
        exact ⟨hnm x hx, fun c hc hcn => hdrift c hc x hx hcn⟩
      | some t =>
        rcases t with ⟨a0, b0⟩
        obtain ⟨i, pre, hget, hrem, ⟨d, hdl, hb0⟩, ha0, hadv', _⟩ :=
          hoeff.2 a0 b0 hoc
        have hpremem : pre ∈ st.opt.advertisers := List.getElem?_mem hget
        have hb0nn : 0 ≤ b0 := by
          rw [hb0]
          cases hv : d.lookup query with
          | none => simp [hv]
          | some v =>
            simp only [hv, Option.getD_some]
            exact hbn _ (lookup_mem hdl) _ (lookup_mem hv)
        intro x hx
        rw [hadv'] at hx
        rcases List.mem_or_eq_of_mem_set hx with hx1 | hx2
        · exact ⟨hnm x hx1, fun c hc hcn => hdrift c hc x hx1 hcn⟩
        · rw [hx2, ha0]
          refine ⟨hnm pre hpremem, ?_⟩
          intro c hc hcn
          have := hdrift c hc pre hpremem hcn
          constructor
          · show c.spent_budget ≤ pre.spent_budget + b0
            linarith [this.1]
          · show c.initial_budget = pre.initial_budget
            exact this.2
    have pspec := pess_allocate_spec
      ⟨st.pess.bids, opt'.advertisers, st.pess.alpha⟩ query
    obtain ⟨pout, hpout⟩ := pspec.1
    rcases pout with ⟨p_copy, pess'⟩
    rw [hpout] at hcontra
    simp only [] at hcontra
    have hpeff := pspec.2 p_copy pess' hpout
    have hocand : ∀ a0 b0, o_copy = some (a0, b0) →
        (∃ c ∈ st.auth, c.name = a0.name) ∧
        (∀ c ∈ st.auth, c.name = a0.name → b0 ≤ c.remaining_budget) := by
      intro a0 b0 hoc
      obtain ⟨i, pre, hget, hrem, _, ha0, _, _⟩ := hoeff.2 a0 b0 hoc
      have hpremem : pre ∈ st.opt.advertisers := List.getElem?_mem hget
      have hname : a0.name = pre.name := by rw [ha0]
      refine ⟨by rw [hname]; exact hnm pre hpremem, ?_⟩
      intro c hc hcn
      rw [hname] at hcn
      have hd := hdrift c hc pre hpremem hcn
      unfold Advertiser.remaining_budget at *
      linarith [hd.1, hd.2.le, hrem]
    have hpcand : ∀ a0 b0, p_copy = some (a0, b0) →
        (∃ c ∈ st.auth, c.name = a0.name) ∧
        (∀ c ∈ st.auth, c.name = a0.name → b0 ≤ c.remaining_budget) := by
      intro a0 b0 hpc
      obtain ⟨i, pre, hget, helig, hb, ha0, _, _⟩ := hpeff.2 a0 b0 hpc
      have hpremem : pre ∈ opt'.advertisers := List.getElem?_mem hget
      have hname : a0.name = pre.name := by rw [ha0]
      have hrem : b0 ≤ pre.remaining_budget := by rw [hb]; exact helig.2
      obtain ⟨hex, hdr⟩ := hshadow' pre hpremem
      refine ⟨by rw [hname]; exact hex, ?_⟩
      intro c hc hcn
      rw [hname] at hcn
      have hd := hdr c hc hcn
      unfold Advertiser.remaining_budget at *
      linarith [hd.1, hd.2.le]
    have hmot := matchAuthoritative_total st.auth o_copy
      (fun a0 b0 he => (hocand a0 b0 he).1)
    cases hmo : matchAuthoritative st.auth o_copy with
    | none => rw [hmo] at hmot; exact absurd hmot (by simp)
    | some oM =>
      rw [hmo] at hcontra
      simp only [] at hcontra
      have hmpt := matchAuthoritative_total st.auth p_copy
        (fun a0 b0 he => (hpcand a0 b0 he).1)
      cases hmp : matchAuthoritative st.auth p_copy with
      | none => rw [hmp] at hmpt; exact absurd hmpt (by simp)
      | some pM =>
        rw [hmp] at hcontra
        simp only [] at hcontra
        have hcommit : ∀ (t : ℕ × Advertiser × ℚ) (isO : Bool)
            (oc : Option (Advertiser × ℚ)),
            matchAuthoritative st.auth oc = some (some t) →
            (∀ a0 b0, oc = some (a0, b0) →
              (∀ c ∈ st.auth, c.name = a0.name → b0 ≤ c.remaining_budget)) →
            (match t.2.1.deduct_budget t.2.2 with
              | none => (none : Option ((Option (Advertiser × ℚ)) × BalancedState))
              | some adv' =>
                some (some (adv', t.2.2),
                  { st with
                    auth := st.auth.set t.1 adv',
                    cache := some st.auth,
                    opt := { opt' with advertisers := pess'.advertisers },
                    pess := pess',
                    allocO := st.allocO + (if isO then 1 else 0),
                    allocP := st.allocP + (if isO then 0 else 1) })) ≠
              none := by
          intro t isO oc hmt hcand
          obtain ⟨hget, a0, hoc, hnamet⟩ :=
            (matchAuthoritative_spec st.auth oc _ hmt).2 t.1 t.2.1 t.2.2 rfl
          have hmem : t.2.1 ∈ st.auth := List.getElem?_mem hget
          have hle : t.2.2 ≤ t.2.1.remaining_budget :=
            hcand a0 t.2.2 hoc t.2.1 hmem hnamet
          rw [deduct_budget_isSome hle]
          simp
        cases oM with
        | none =>
          cases pM with
          | none => simp only [] at hcontra; exact Option.noConfusion hcontra
          | some p =>
            simp only [] at hcontra
            exact hcommit p false p_copy hmp
              (fun a0 b0 he => (hpcand a0 b0 he).2) hcontra
        | some o =>
          cases pM with
          | none =>
            simp only [] at hcontra
            exact hcommit o true o_copy hmo
              (fun a0 b0 he => (hocand a0 b0 he).2) hcontra
          | some p =>
            simp only [] at hcontra
            split at hcontra
            · exact hcommit o true o_copy hmo
                (fun a0 b0 he => (hocand a0 b0 he).2) hcontra
            · exact hcommit p false p_copy hmp
                (fun a0 b0 he => (hpcand a0 b0 he).2) hcontra

/-- **C4.** Per query, the authoritative ledger receives at most one
deduction.  A completed balanced call reports the candidates `oc`, `pc`
of its two sub-strategies, and: when both are `None`, it returns
`(None, 0)` with the authoritative list unchanged (no mutation at all);
when at least one candidate exists, it performs exactly one successful
`deduct_budget`, on the single authoritative advertiser whose name
matches the winning candidate `w`, for `w`'s bid, and returns that
advertiser with the bid — the winner being the sole candidate if only
one sub-strategy produced one, and otherwise the one selected by the
source's `self.alpha * o_score >= p_score` comparison over the
name-matched authoritative advertisers.  Moreover, under the conditions
every reachable run satisfies (shadow names present in the bid table and
in the ledger, authoritative spend at most the like-named shadow spend,
non-negative bids) the call completes, so when a candidate exists the
one deduction is in fact applied. -/
theorem C4_balanced_single_authoritative_deduction
    (st : BalancedState) (query : String) :
    (∀ res st', balancedAllocate st query = some (res, st') →
      ∃ oc opt' pc pess',
        st.opt.allocate_query query = some (oc, opt') ∧
        PessimisticAlgorithm.allocate_query
          ⟨st.pess.bids, opt'.advertisers, st.pess.alpha⟩ query =
            some (pc, pess') ∧
        st'.pess = pess' ∧
        ((oc = none ∧ pc = none ∧ res = none ∧ st'.auth = st.auth) ∨
          (∃ i adv b adv' w,
            st.auth[i]? = some adv ∧
            adv.deduct_budget b = some adv' ∧
            res = some (adv', b) ∧
            st'.auth = st.auth.set i adv' ∧
            (oc = some (w, b) ∨ pc = some (w, b)) ∧
            adv.name = w.name ∧
            (pc = none → oc = some (w, b)) ∧
            (oc = none → pc = some (w, b)) ∧
            (∀ io advo bo ip advp bp,
              matchAuthoritative st.auth oc = some (some (io, advo, bo)) →
              matchAuthoritative st.auth pc = some (some (ip, advp, bp)) →
              (phi_alpha (advp.budget_fraction : ℝ) st.alpha * (bp : ℝ) ≤
                  st.alpha * (phi_alpha (advo.budget_fraction : ℝ)
                    st.alpha * (bo : ℝ)) →
                oc = some (w, b) ∧ i = io ∧ adv = advo) ∧
              (¬(phi_alpha (advp.budget_fraction : ℝ) st.alpha * (bp : ℝ) ≤
                  st.alpha * (phi_alpha (advo.budget_fraction : ℝ)
                    st.alpha * (bo : ℝ))) →
                pc = some (w, b) ∧ i = ip ∧ adv = advp)) ∧
            (BidsNonneg st.opt.bids → 0 ≤ b)))) ∧
    ((∀ a ∈ st.opt.advertisers, (st.opt.bids.lookup a.name).isSome) →
      (∀ a ∈ st.opt.advertisers, ∃ c ∈ st.auth, c.name = a.name) →
      (∀ c ∈ st.auth, ∀ a ∈ st.opt.advertisers, c.name = a.name →
        c.spent_budget ≤ a.spent_budget ∧
          c.initial_budget = a.initial_budget) →
      BidsNonneg st.opt.bids →
      balancedAllocate st query ≠ none) :=
  ⟨fun res st' h => balanced_allocate_effect st query res st' h,
    fun h1 h2 h3 h4 => balanced_allocate_total st query h1 h2 h3 h4⟩

/-- A concrete balanced state for the C4 witness: authoritative `A1`
has spent 3, the shared shadow copy has spent 6. -/
def stC4 : BalancedState :=
  ⟨[⟨"A1", 10, 3⟩], some [⟨"A1", 10, 3⟩],
   ⟨[("k1", 1)], fun r c => if r = 0 ∧ c = 0 then 1 else 0,
    [⟨"A1", 10, 6⟩], [("A1", [("k1", 5)])], ["k1"]⟩,
   ⟨[("A1", [("k1", 5)])], [⟨"A1", 10, 6⟩], 1⟩, 1, 0, 0⟩

/-- Witness for C4, discharging the completion hypotheses at `stC4`. -/
theorem C4_balanced_single_authoritative_deduction_witness :
    balancedAllocate stC4 "k1" ≠ none :=
  (C4_balanced_single_authoritative_deduction stC4 "k1").2
    (by intro a ha; simp [stC4] at ha; rw [ha]; decide)
    (by
      intro a ha
      simp [stC4] at ha
      exact ⟨⟨"A1", 10, 3⟩, by simp [stC4], by rw [ha]⟩)
    (by
      intro c hc a ha _
      simp [stC4] at hc ha
      rw [hc, ha]
      norm_num)
    (by
      intro p hp q hq
      simp [stC4] at hp
      rw [hp] at hq
      simp at hq
      rw [hq]
      norm_num)

-- ------------------------------------------------------------------
-- A concrete balanced-mode scenario (used by C2 and C3)
-- ------------------------------------------------------------------

/-- One advertiser `A1` with budget 10 and a bid of 5 on `k1`. -/
def bidsEx : BidTable := [("A1", [("k1", 5)])]

/-- Predicted demand: one `k1` query. -/
def predEx : List (String × ℤ) := [("k1", 1)]

/-- The (unique) LP optimum of this instance: `x_{A1,k1} = 1`
(maximize `5x` subject to `5x ≤ 10`, `x ≤ 1`, `x ≥ 0`). -/
def solEx : ℕ → ℚ := fun i => if i = 0 then 1 else 0

/-- The registry right after the driver's `reset_budgets()` and
`reset_advertiser_list_copy()` (`src/experiment.py` lines 53-54). -/
def regEx : Registry := ⟨[⟨"A1", 10, 0⟩], some [⟨"A1", 10, 0⟩]⟩

theorem balancedConstructEx_eval :
    (balancedConstruct 1 bidsEx predEx solEx 10 regEx).map
        (fun st => (st.auth, st.cache, st.opt.advertisers, st.pess.advertisers)) =
      some ([⟨"A1", 10, 0⟩], some [⟨"A1", 10, 5⟩],
            [⟨"A1", 10, 5⟩], [⟨"A1", 10, 5⟩]) := by
  have hrange : List.range 1 = [0] := by decide
  have hk : "k" ++ toString 1 = "k1" := by decide
  norm_num [balancedConstruct, OptimisticAlgorithm.construct, solve_allocation,
    round_solution_to_integers, Registry.get_advertiser_list_copy, oracleKeywords,
    sortedIndices, roundStep, truncQ, Advertiser.deduct_budget,
    Advertiser.remaining_budget, dictSetZ, List.lookup, bidsEx, predEx, solEx,
    regEx, List.foldlM, List.mapM, List.mapM.loop, hrange, hk,
    List.mergeSort_singleton]

theorem balancedAllocateEx_eval :
    ((balancedConstruct 1 bidsEx predEx solEx 10 regEx).bind
        (fun st => balancedAllocate st "k1")).map
        (fun r => (r.1, r.2.auth, r.2.cache, r.2.opt.advertisers,
                   r.2.pess.advertisers)) =
      some (some (⟨"A1", 10, 5⟩, 5), [⟨"A1", 10, 5⟩], some [⟨"A1", 10, 0⟩],
            [⟨"A1", 10, 10⟩], [⟨"A1", 10, 10⟩]) := by
  have hrange : List.range 1 = [0] := by decide
  have hk : "k" ++ toString 1 = "k1" := by decide
  norm_num [balancedConstruct, OptimisticAlgorithm.construct, solve_allocation,
    round_solution_to_integers, Registry.get_advertiser_list_copy, oracleKeywords,
    sortedIndices, roundStep, truncQ, Advertiser.deduct_budget,
    Advertiser.remaining_budget, dictSetZ, List.lookup, bidsEx, predEx, solEx,
    regEx, List.foldlM, List.mapM, List.mapM.loop, hrange, hk,
    List.mergeSort_singleton, balancedAllocate, OptimisticAlgorithm.allocate_query,
    PessimisticAlgorithm.allocate_query, optFold, optScanStep, pessFold, pessEligible,
    getBid0, matchAuthoritative, List.enum, List.enumFrom, List.find?,
    List.indexOf, List.findIdx, List.findIdx.go]

/-- **C3** (refuting evaluation).  Constructing the balanced allocator on
a one-advertiser instance (budget 10, bid 5 on `k1`, predicted demand 1,
LP optimum `x = 1`) leaves the authoritative ledger untouched (`spent 0`)
but leaves the planning oracle's rounding deduction (`spent 5`) inside
the very shadow advertiser list that both sub-allocators subsequently
spend against: the working copy is the shared cached copy, not private,
and is not discarded. -/
theorem C3_oracle_working_copy_not_private :
    ((balancedConstruct 1 bidsEx predEx solEx 10 regEx).map
        (fun st => (st.auth, st.cache, st.opt.advertisers, st.pess.advertisers)) =
      some ([⟨"A1", 10, 0⟩], some [⟨"A1", 10, 5⟩],
            [⟨"A1", 10, 5⟩], [⟨"A1", 10, 5⟩])) ∧
    ([(⟨"A1", 10, 5⟩ : Advertiser)] ≠ [⟨"A1", 10, 0⟩]) :=
  ⟨balancedConstructEx_eval, by decide⟩

/-- **C2** (refuting evaluation).  After the balanced allocator serves one
`k1` query on the same instance, the authoritative ledger shows
`spent 5`, the per-query `reset_advertiser_list_copy()` has indeed
refreshed the registry cache (to the pre-query authoritative copy), yet
both sub-allocators still hold the stale shadow list (`spent 10`,
accumulating the oracle's rounding deduction plus their own provisional
deduction): the shadow they will evaluate the next query against is
incrementally patched and never equals the authoritative spend state. -/
theorem C2_shadow_never_rebuilt :
    (((balancedConstruct 1 bidsEx predEx solEx 10 regEx).bind
        (fun st => balancedAllocate st "k1")).map
        (fun r => (r.1, r.2.auth, r.2.cache, r.2.opt.advertisers,
                   r.2.pess.advertisers)) =
      some (some (⟨"A1", 10, 5⟩, 5), [⟨"A1", 10, 5⟩], some [⟨"A1", 10, 0⟩],
            [⟨"A1", 10, 10⟩], [⟨"A1", 10, 10⟩])) ∧
    ([(⟨"A1", 10, 10⟩ : Advertiser)] ≠ [⟨"A1", 10, 5⟩]) :=
  ⟨balancedAllocateEx_eval, by decide⟩

-- ------------------------------------------------------------------
-- C10 — the oracle's generated keyword names and plan-column alignment
-- ------------------------------------------------------------------

theorem mapM_option_isSome {α β : Type} (f : α → Option β) :
    ∀ (l : List α), (l.mapM f).isSome ↔ ∀ a ∈ l, (f a).isSome := by
  intro l
  induction l with
  | nil => simp [List.mapM_nil, List.mapM.loop]
  | cons a rest ih =>
    rw [List.mapM_cons]
    constructor
    · intro h x hx
      cases hfa : f a with
      | none => rw [hfa] at h; simp at h
      | some b =>
        rw [hfa] at h
        rcases List.mem_cons.mp hx with h1 | h2
        · rw [h1, hfa]; rfl
        · cases hrest : rest.mapM f with
          | none => rw [hrest] at h; simp at h
          | some bs => exact (ih.mp (by rw [hrest]; rfl)) x h2
    · intro h
      have hfa : (f a).isSome := h a (List.mem_cons_self a rest)
      cases hfa2 : f a with
      | none => rw [hfa2] at hfa; simp at hfa
      | some b =>
        have hrest : (rest.mapM f).isSome :=
          ih.mpr (fun x hx => h x (List.mem_cons_of_mem _ hx))
        cases hrest2 : rest.mapM f with
        | none => rw [hrest2] at hrest; simp at hrest
        | some bs => simp [hfa2, hrest2]

/-- **C10.** The oracle only models the generated keyword names
`"k1" … "k⟨n⟩"`: (1) membership in its keyword list is exactly being one
of those names (any other keyword gets no plan column); (2) building the
demand bounds — and hence constructing the allocator — succeeds iff the
predicted-demand map has an entry for every generated name, a missing
one raising `KeyError`; (3) the online phase's keyword list is the
predicted-demand map's key order (its `indexOf` is the plan column
read), and reading the correct plan column `i` for every generated
keyword forces that key order to be exactly `"k1", "k2", …`; for
illustration, with the canonical order at `n = 3` every generated
keyword is read at its own column. -/
theorem C10_keyword_naming_and_column_alignment :
    (∀ (n : ℕ) (s : String),
      s ∈ oracleKeywords n ↔ ∃ i < n, s = "k" ++ toString (i + 1)) ∧
    (∀ (n : ℕ) (pred : List (String × ℤ)),
      ((oracleKeywords n).mapM (fun k => pred.lookup k)).isSome ↔
        ∀ k ∈ oracleKeywords n, (pred.lookup k).isSome) ∧
    (∀ (n : ℕ) (bids : BidTable) (advs : List Advertiser)
        (pred : List (String × ℤ)) (sol : ℕ → ℚ),
      (∃ k ∈ oracleKeywords n, pred.lookup k = none) →
        solve_allocation n bids advs pred sol = none) ∧
    (∀ (n : ℕ) (bids : BidTable) (pred : List (String × ℤ)) (sol : ℕ → ℚ)
        (rib : Bool) (r : Registry) (opt : OptimisticAlgorithm) (r' : Registry),
      OptimisticAlgorithm.construct n bids pred sol rib r = some (opt, r') →
        opt.keywords = pred.map Prod.fst) ∧
    (∀ (n : ℕ) (keys : List String), keys.length = n →
      (∀ i, i < n → keys.indexOf ("k" ++ toString (i + 1)) = i) →
        keys = oracleKeywords n) ∧
    (∀ i, i < 3 → (oracleKeywords 3).indexOf ("k" ++ toString (i + 1)) = i) := by
  refine ⟨?_, ?_, ?_, ?_, ?_, by decide⟩
  · intro n s
    simp [oracleKeywords]
    constructor
    · rintro ⟨i, hi, rfl⟩; exact ⟨i, hi, rfl⟩
    · rintro ⟨i, hi, rfl⟩; exact ⟨i, hi, rfl⟩
  · intro n pred
    exact mapM_option_isSome _ _
  · intro n bids advs pred sol ⟨k, hk, hnone⟩
    have hmn : ((oracleKeywords n).mapM (fun k => pred.lookup k)) = none := by
      cases hm : ((oracleKeywords n).mapM (fun k => pred.lookup k)) with
      | none => rfl
      | some v =>
        have := (mapM_option_isSome (fun k => pred.lookup k) (oracleKeywords n)).mp
          (by rw [hm]; rfl) k hk
        rw [hnone] at this
        simp at this
    simp only [solve_allocation, hmn]
    rfl
  · intro n bids pred sol rib r opt r' h
    simp only [OptimisticAlgorithm.construct] at h
    cases hs : solve_allocation n bids (r.get_advertiser_list_copy).1 pred sol with
    | none => rw [hs] at h; exact Option.noConfusion h
    | some rs =>
      rw [hs] at h
      simp at h
      rw [← h.1]
  · intro n keys hlen hidx
    have hlen2 : (oracleKeywords n).length = n := by
      simp [oracleKeywords]
    apply List.ext_getElem?
    intro i
    by_cases hin : i < n
    · have hfound : keys.indexOf ("k" ++ toString (i + 1)) = i := hidx i hin
      have hlt : keys.indexOf ("k" ++ toString (i + 1)) < keys.length := by
        rw [hfound, hlen]; exact hin
      have hk1 : keys[i]? = some ("k" ++ toString (i + 1)) := by
        have hsome := List.getElem?_eq_getElem hlt
        rw [List.getElem_indexOf hlt] at hsome
        rw [hfound] at hsome
        exact hsome
      rw [hk1]
      simp [oracleKeywords, List.getElem?_map, List.getElem?_range, hin]
    · have h1 : keys[i]? = none := by
        apply List.getElem?_eq_none
        rw [hlen]
        exact le_of_not_lt hin
      have h2 : (oracleKeywords n)[i]? = none := by
        apply List.getElem?_eq_none
        rw [hlen2]
        exact le_of_not_lt hin
      rw [h1, h2]

-- ------------------------------------------------------------------
-- C7 — feasibility of the rounded offline plan
-- ------------------------------------------------------------------

theorem dictSetZ_lookup_ne {d : List (String × ℤ)} {s kw : String} {v : ℤ}
    (h : s ≠ kw) : (dictSetZ d kw v).lookup s = d.lookup s := by
  induction d with
  | nil => rfl
  | cons p rest ih =>
    rcases p with ⟨k0, v0⟩
    simp only [dictSetZ, List.map_cons]
    by_cases hk : k0 = kw
    · subst hk
      rw [if_pos rfl, List.lookup_cons, List.lookup_cons,
        show (s == k0) = false from beq_eq_false_iff_ne.mpr h]
      exact ih
    · rw [if_neg hk, List.lookup_cons, List.lookup_cons]
      cases hsk : s == k0 with
      | true => rfl
      | false => exact ih

theorem dictSetZ_lookup_eq {d : List (String × ℤ)} {kw : String} {v w : ℤ}
    (h : d.lookup kw = some w) : (dictSetZ d kw v).lookup kw = some v := by
  induction d with
  | nil => simp [List.lookup] at h
  | cons p rest ih =>
    rcases p with ⟨k0, v0⟩
    by_cases hk : k0 = kw
    · subst hk
      simp [dictSetZ, List.lookup_cons]
    · simp only [dictSetZ, List.map_cons, if_neg hk, List.lookup_cons] at *
      rw [show (kw == k0) = false from beq_eq_false_iff_ne.mpr (Ne.symm hk)] at *
      exact ih h

theorem foldlM_option_inv {σ α : Type} (P : σ → Prop) (f : σ → α → Option σ)
    (hf : ∀ s a s', P s → f s a = some s' → P s') :
    ∀ (l : List α) (s s' : σ), P s → l.foldlM f s = some s' → P s' := by
  intro l
  induction l with
  | nil =>
    intro s s' hs h
    simp [List.foldlM] at h
    rw [← h]
    exact hs
  | cons a rest ih =>
    intro s s' hs h
    rw [List.foldlM_cons] at h
    cases hfa : f s a with
    | none => rw [hfa] at h; exact Option.noConfusion h
    | some s1 =>
      rw [hfa] at h
      exact ih s1 s' (hf s a s1 hs hfa) h

/-- The `remaining_queries = {k: predicted[k] for k in keywords}` build:
every entry's value is its key's predicted value, and every keyword has
an entry. -/
theorem remInit_spec (pred : List (String × ℤ)) :
    ∀ (ks : List String) (r : List (String × ℤ)),
      ks.mapM (fun k => (pred.lookup k).map (fun v => (k, v))) = some r →
      (∀ s d, r.lookup s = some d → pred.lookup s = some d) ∧
      (∀ k ∈ ks, (r.lookup k).isSome) := by
  intro ks
  induction ks with
  | nil =>
    intro r h
    simp [List.mapM_nil, List.mapM.loop] at h
    subst h
    exact ⟨fun s d hc => by simp [List.lookup] at hc, fun k hk => by simp at hk⟩
  | cons k0 rest ih =>
    intro r h
    rw [List.mapM_cons] at h
    cases hp : pred.lookup k0 with
    | none => rw [hp] at h; simp at h
    | some v0 =>
      rw [hp] at h
      cases hrest : rest.mapM (fun k => (pred.lookup k).map (fun v => (k, v))) with
      | none => rw [hrest] at h; simp at h
      | some r' =>
        rw [hrest] at h
        simp at h
        obtain ⟨hspec, hall⟩ := ih r' hrest
        rw [← h]
        constructor
        · intro s d hc
          rw [List.lookup_cons] at hc
          by_cases hs : s = k0
          · subst hs
            rw [show (s == s) = true from beq_self_eq_true s] at hc
            simp at hc
            rw [← hc]
            exact hp
          · rw [show (s == k0) = false from beq_eq_false_iff_ne.mpr hs] at hc
            exact hspec s d hc
        · intro k hk
          rcases List.mem_cons.mp hk with h1 | h2
          · subst h1
            simp [List.lookup_cons]
          · rw [List.lookup_cons]
            cases hkk : k == k0 with
            | true => rfl
            | false => exact hall k h2

/-- The divisor-bid the rounding step uses for cell `(i, ki)`:
`self.bids[name].get(keyword, 1)` (a missing keyword defaults to 1). -/
def planBid (bids : BidTable) (advs0 : List Advertiser)
    (keywords : List String) (i ki : ℕ) : ℚ :=
  ((bids.lookup (((advs0[i]?).map Advertiser.name).getD "")).getD []).lookup
    ((keywords[ki]?).getD "") |>.getD 1

theorem planBid_nonneg {bids : BidTable} (hb : BidsNonneg bids)
    (advs0 : List Advertiser) (keywords : List String) (i ki : ℕ) :
    0 ≤ planBid bids advs0 keywords i ki := by
  unfold planBid
  cases hd : bids.lookup (((advs0[i]?).map Advertiser.name).getD "") with
  | none => simp [hd]
  | some d =>
    cases hq : d.lookup ((keywords[ki]?).getD "") with
    | none => simp [hd, hq]
    | some v =>
      simp only [hd, Option.getD_some, hq]
      exact hb _ (lookup_mem hd) _ (lookup_mem hq)

theorem sum_update_eq {M : Type} [AddCommGroup M] {K ki : ℕ} (hki : ki < K)
    (f g : ℕ → M) (hoff : ∀ x, x ≠ ki → f x = g x) :
    ∑ x ∈ Finset.range K, f x =
      (∑ x ∈ Finset.range K, g x) - g ki + f ki := by
  have hmem : ki ∈ Finset.range K := Finset.mem_range.mpr hki
  rw [← Finset.sum_erase_add _ f hmem, ← Finset.sum_erase_add _ g hmem]
  have : ∑ x ∈ (Finset.range K).erase ki, f x =
      ∑ x ∈ (Finset.range K).erase ki, g x := by
    apply Finset.sum_congr rfl
    intro x hx
    exact hoff x (Finset.ne_of_mem_erase hx)
  rw [this]
  abel

/-- The invariant of the rounding loop, relative to the starting
advertiser list `advs0` and the starting `remaining_queries` map
`rem0`: allocation entries stay non-negative; every working advertiser
keeps its name and initial budget, its spend only grows and stays within
its initial budget, and dominates the cost of its allocation row; the
remaining-queries map keeps its keys, stays non-negative, and together
with the allocation columns of its keyword stays within the original
demand. -/
def RInv (bids : BidTable) (advs0 : List Advertiser) (keywords : List String)
    (rem0 : List (String × ℤ)) (st : RoundState) : Prop :=
  st.advertisers.length = advs0.length ∧
  (∀ i k, 0 ≤ st.allocations i k) ∧
  (∀ i a0 a, advs0[i]? = some a0 → st.advertisers[i]? = some a →
      a.name = a0.name ∧ a.initial_budget = a0.initial_budget ∧
      a0.spent_budget ≤ a.spent_budget ∧ a.spent_budget ≤ a.initial_budget ∧
      (∑ ki ∈ Finset.range keywords.length,
          (st.allocations i ki : ℚ) * planBid bids advs0 keywords i ki) ≤
        a.spent_budget - a0.spent_budget) ∧
  (∀ s, (st.remaining.lookup s).isSome ↔ (rem0.lookup s).isSome) ∧
  (∀ s d, st.remaining.lookup s = some d →
      0 ≤ d ∧
      ∃ d0, rem0.lookup s = some d0 ∧
        (∑ i ∈ Finset.range advs0.length,
            ∑ ki ∈ Finset.range keywords.length,
              (if keywords[ki]? = some s then st.allocations i ki else 0)) + d ≤ d0)

theorem roundStep_preserves {bids : BidTable} {advs0 : List Advertiser}
    {keywords : List String} {rem0 : List (String × ℤ)} {sol : ℕ → ℚ}
    (hb : BidsNonneg bids) (hsol : ∀ i, 0 ≤ sol i) :
    ∀ (st : RoundState) (idx : ℕ) (st' : RoundState),
      RInv bids advs0 keywords rem0 st →
      roundStep bids keywords advs0.length sol st idx = some st' →
      RInv bids advs0 keywords rem0 st' := by
  intro st idx st' hinv hstep
  unfold roundStep at hstep
  by_cases h0 : sol idx = 0
  · rw [if_pos h0] at hstep
    rw [Option.some_inj] at hstep
    rw [← hstep]
    exact hinv
  · rw [if_neg h0] at hstep
    simp only [] at hstep
    obtain ⟨hlen, halloc, hadvinv, hkeys, hdem⟩ := hinv
    cases hadv : st.advertisers[idx % advs0.length]? with
    | none => rw [hadv] at hstep; exact Option.noConfusion hstep
    | some a =>
      cases hkw : keywords[idx / advs0.length]? with
      | none => rw [hadv, hkw] at hstep; exact Option.noConfusion hstep
      | some kw =>
        rw [hadv, hkw] at hstep
        simp only [] at hstep
        cases hbl : bids.lookup a.name with
        | none => rw [hbl] at hstep; exact Option.noConfusion hstep
        | some d =>
          rw [hbl] at hstep
          simp only [] at hstep
          by_cases hbz : (d.lookup kw).getD 1 = 0
          · rw [if_pos hbz] at hstep; exact Option.noConfusion hstep
          · rw [if_neg hbz] at hstep
            cases hrq : st.remaining.lookup kw with
            | none => rw [hrq] at hstep; exact Option.noConfusion hstep
            | some rq =>
              rw [hrq] at hstep
              simp only [] at hstep
              cases hded : a.deduct_budget
                  ((min (min (truncQ (sol idx)) rq)
                    ⌊(a.initial_budget - a.spent_budget) /
                      ((d.lookup kw).getD 1)⌋ : ℤ) * ((d.lookup kw).getD 1)) with
              | none => rw [hded] at hstep; exact Option.noConfusion hstep
              | some adv' =>
                rw [hded] at hstep
                rw [Option.some_inj] at hstep
                -- abbreviations
                set ai := idx % advs0.length with hai
                set ki := idx / advs0.length with hki
                set b : ℚ := (d.lookup kw).getD 1 with hbdef
                set m : ℤ := min (min (truncQ (sol idx)) rq)
                  ⌊(a.initial_budget - a.spent_budget) / b⌋ with hmdef
                -- index bounds
                have hailt : ai < st.advertisers.length := by
                  by_contra hcon
                  rw [List.getElem?_eq_none (le_of_not_lt hcon)] at hadv
                  exact Option.noConfusion hadv
                have hailt0 : ai < advs0.length := by rw [← hlen]; exact hailt
                have hkilt : ki < keywords.length := by
                  by_contra hcon
                  rw [List.getElem?_eq_none (le_of_not_lt hcon)] at hkw
                  exact Option.noConfusion hkw
                obtain ⟨a0, ha0⟩ : ∃ a0, advs0[ai]? = some a0 := by
                  rw [List.getElem?_eq_getElem hailt0]
                  exact ⟨advs0[ai], rfl⟩
                obtain ⟨hname, hinit, hsp0, hsple, hbudsum⟩ :=
                  hadvinv ai a0 a ha0 hadv
                -- the divisor-bid is the planBid of this cell
                have hpb : planBid bids advs0 keywords ai ki = b := by
                  simp [planBid, ha0, hkw, ← hname, hbl, hbdef]
                have hbnn : 0 ≤ b := by
                  rw [← hpb]; exact planBid_nonneg hb advs0 keywords ai ki
                have hbpos : 0 < b := lt_of_le_of_ne hbnn (Ne.symm hbz)
                have hrq0 : 0 ≤ rq := (hdem kw rq hrq).1
                have hmnn : 0 ≤ m := by
                  rw [hmdef]
                  refine le_min (le_min ?_ hrq0) ?_
                  · unfold truncQ
                    rw [if_pos (hsol idx)]
                    exact Int.floor_nonneg.mpr (hsol idx)
                  · apply Int.floor_nonneg.mpr
                    apply div_nonneg _ hbnn
                    have := hsple
                    have := hsp0
                    linarith [hsple]
                have hmrq : m ≤ rq := le_trans (min_le_left _ _) (min_le_right _ _)
                obtain ⟨hdle, hadv'⟩ := deduct_budget_some hded
                -- the new state componentwise
                rw [← hstep]
                refine ⟨by simpa using hlen, ?_, ?_, ?_, ?_⟩
                · -- allocations nonneg
                  intro i k
                  by_cases hik : i = ai ∧ k = ki
                  · simp only [hik.1, hik.2, if_pos (And.intro rfl rfl)]
                    exact hmnn
                  · simp only [if_neg hik]
                    exact halloc i k
                · -- advertiser clauses
                  intro i c0 c hc0 hc
                  by_cases hiai : i = ai
                  · subst hiai
                    rw [ha0, Option.some_inj] at hc0
                    rw [List.getElem?_set_self hailt, Option.some_inj] at hc
                    subst hc0
                    rw [← hc, hadv']
                    have hmbnn : (0:ℚ) ≤ (m:ℚ) * b :=
                      mul_nonneg (by exact_mod_cast hmnn) hbnn
                    have hrem : (m:ℚ) * b ≤ a.initial_budget - a.spent_budget := by
                      simpa [Advertiser.remaining_budget] using hdle
                    refine ⟨hname, hinit, by simp only []; linarith,
                      by simp only []; linarith, ?_⟩
                    have hsum := sum_update_eq (M := ℚ) hkilt
                      (fun x => (((if ai = ai ∧ x = ki then m
                          else st.allocations ai x) : ℤ) : ℚ) *
                        planBid bids advs0 keywords ai x)
                      (fun x => ((st.allocations ai x : ℤ) : ℚ) *
                        planBid bids advs0 keywords ai x)
                      (fun x hx => by
                        simp only []
                        rw [if_neg (fun hcon => hx hcon.2)])
                    simp only [] at hsum ⊢
                    rw [hsum]
                    simp only [eq_self_iff_true, and_self, if_true, hpb]
                    have hterm : (0:ℚ) ≤ ((st.allocations ai ki : ℤ) : ℚ) *
                        planBid bids advs0 keywords ai ki :=
                      mul_nonneg (by exact_mod_cast halloc ai ki)
                        (planBid_nonneg hb advs0 keywords ai ki)
                    rw [hpb] at hterm
                    linarith
                  · -- untouched row
                    rw [List.getElem?_set_ne (fun hcon => hiai hcon.symm)] at hc
                    obtain ⟨g1, g2, g3, g4, g5⟩ := hadvinv i c0 c hc0 hc
                    refine ⟨g1, g2, g3, g4, ?_⟩
                    have : ∀ x ∈ Finset.range keywords.length,
                        (((if i = ai ∧ x = ki then m
                            else st.allocations i x) : ℤ) : ℚ) *
                          planBid bids advs0 keywords i x =
                        ((st.allocations i x : ℤ) : ℚ) *
                          planBid bids advs0 keywords i x := by
                      intro x _
                      rw [if_neg (fun hcon => hiai hcon.1)]
                    simp only []
                    rw [Finset.sum_congr rfl this]
                    exact g5
                · -- remaining keys preserved
                  intro s
                  by_cases hskw : s = kw
                  · subst hskw
                    simp only []
                    rw [dictSetZ_lookup_eq hrq]
                    constructor
                    · intro _
                      exact (hkeys s).mp (by rw [hrq]; rfl)
                    · intro _
                      rfl
                  · simp only []
                    rw [dictSetZ_lookup_ne hskw]
                    exact hkeys s
                · -- demand link
                  intro s dd hdd
                  simp only [] at hdd
                  by_cases hskw : s = kw
                  · subst hskw
                    rw [dictSetZ_lookup_eq hrq, Option.some_inj] at hdd
                    obtain ⟨hrqn, d0, hd0, hsumle⟩ := hdem s rq hrq
                    refine ⟨by rw [← hdd]; omega, d0, hd0, ?_⟩
                    have houter := sum_update_eq (M := ℤ) hailt0
                      (fun i => ∑ x ∈ Finset.range keywords.length,
                        (if keywords[x]? = some s then
                          (if i = ai ∧ x = ki then m else st.allocations i x)
                          else 0))
                      (fun i => ∑ x ∈ Finset.range keywords.length,
                        (if keywords[x]? = some s then st.allocations i x else 0))
                      (fun i hx => by
                        simp only []
                        apply Finset.sum_congr rfl
                        intro x _
                        by_cases hg : keywords[x]? = some s
                        · rw [if_pos hg, if_pos hg,
                            if_neg (fun hcon => hx hcon.1)]
                        · rw [if_neg hg, if_neg hg])
                    have hinner := sum_update_eq (M := ℤ) hkilt
                      (fun x => (if keywords[x]? = some s then
                        (if ai = ai ∧ x = ki then m else st.allocations ai x)
                        else 0))
                      (fun x => (if keywords[x]? = some s then
                        st.allocations ai x else 0))
                      (fun x hx => by
                        simp only []
                        by_cases hg : keywords[x]? = some s
                        · rw [if_pos hg, if_pos hg,
                            if_neg (fun hcon => hx hcon.2)]
                        · rw [if_neg hg, if_neg hg])
                    simp only [] at houter hinner ⊢
                    rw [houter, hinner]
                    simp only [hkw, Option.some_inj, eq_self_iff_true, and_self,
                      if_true]
                    have hallki := halloc ai ki
                    omega
                  · rw [dictSetZ_lookup_ne hskw] at hdd
                    obtain ⟨h1, d0, h2, h3⟩ := hdem s dd hdd
                    refine ⟨h1, d0, h2, ?_⟩
                    have : ∀ i ∈ Finset.range advs0.length,
                        (∑ x ∈ Finset.range keywords.length,
                          (if keywords[x]? = some s then
                            (if i = ai ∧ x = ki then m else st.allocations i x)
                            else 0)) =
                        (∑ x ∈ Finset.range keywords.length,
                          (if keywords[x]? = some s then st.allocations i x
                            else 0)) := by
                      intro i _
                      apply Finset.sum_congr rfl
                      intro x _
                      by_cases hg : keywords[x]? = some s
                      · rw [if_pos hg, if_pos hg]
                        by_cases hcell : i = ai ∧ x = ki
                        · exfalso
                          rw [hcell.2, hkw] at hg
                          rw [Option.some_inj] at hg
                          exact hskw hg.symm
                        · rw [if_neg hcell]
                      · rw [if_neg hg, if_neg hg]
                    simp only []
                    rw [Finset.sum_congr rfl this]
                    exact h3

/-- The rounding pass establishes the loop invariant relative to some
initial `remaining_queries` map faithful to the predicted demand. -/
theorem round_solution_RInv {bids : BidTable} {pred : List (String × ℤ)}
    {advs : List Advertiser} {keywords : List String} {sol : ℕ → ℚ}
    {nV : ℕ} {rs : RoundState}
    (hb : BidsNonneg bids) (hsol : ∀ i, 0 ≤ sol i)
    (hadv : BudgetInv advs) (hpred : ∀ p ∈ pred, 0 ≤ p.2)
    (h : round_solution_to_integers bids pred advs advs.length keywords sol
      nV = some rs) :
    ∃ rem0 : List (String × ℤ),
      (∀ s d, rem0.lookup s = some d → pred.lookup s = some d) ∧
      (∀ k ∈ keywords, (rem0.lookup k).isSome) ∧
      RInv bids advs keywords rem0 rs := by
  unfold round_solution_to_integers at h
  cases hrem : keywords.mapM
      (fun k => (pred.lookup k).map (fun v => (k, v))) with
  | none => rw [hrem] at h; exact Option.noConfusion h
  | some rem0 =>
    rw [hrem] at h
    simp only [Option.bind_eq_bind, Option.some_bind] at h
    obtain ⟨hspec1, hspec2⟩ := remInit_spec pred keywords rem0 hrem
    have hinit : RInv bids advs keywords rem0 ⟨fun _ _ => 0, advs, rem0⟩ := by
      refine ⟨rfl, fun i k => le_refl 0, ?_, fun s => Iff.rfl, ?_⟩
      · intro i a0 a hc0 hc
        rw [hc0, Option.some_inj] at hc
        subst hc
        have hmem : a0 ∈ advs := List.getElem?_mem hc0
        refine ⟨rfl, rfl, le_refl _, (hadv a0 hmem).2, ?_⟩
        simp
      · intro s dd hsd
        have hp := hspec1 s dd hsd
        have hmem := lookup_mem hp
        refine ⟨hpred _ hmem, dd, hsd, ?_⟩
        simp
    exact ⟨rem0, hspec1, hspec2,
      foldlM_option_inv _ _ (fun s a s' hs hf =>
          roundStep_preserves hb hsol s a s' hs hf)
        _ _ _ hinit h⟩

/-- The rounding pass leaves every working-copy advertiser within the
budget invariant. -/
theorem round_preserves_BudgetInv {bids : BidTable}
    {pred : List (String × ℤ)} {advs : List Advertiser}
    {keywords : List String} {sol : ℕ → ℚ} {nV : ℕ} {rs : RoundState}
    (hb : BidsNonneg bids) (hsol : ∀ i, 0 ≤ sol i)
    (hadv : BudgetInv advs) (hpred : ∀ p ∈ pred, 0 ≤ p.2)
    (h : round_solution_to_integers bids pred advs advs.length keywords sol
      nV = some rs) :
    BudgetInv rs.advertisers := by
  obtain ⟨rem0, _, _, hlen, _, hadvinv, _, _⟩ :=
    round_solution_RInv hb hsol hadv hpred h
  intro x hx
  obtain ⟨n, hn⟩ := List.getElem_of_mem hx
  have hn2 : n < advs.length := by rw [← hlen]; exact hn.1
  have hc0 : advs[n]? = some advs[n] := List.getElem?_eq_getElem hn2
  have hc : rs.advertisers[n]? = some x := by
    rw [List.getElem?_eq_getElem hn.1, hn.2]
  obtain ⟨_, _, hsp0, hsple, _⟩ := hadvinv n advs[n] x hc0 hc
  have := (hadv advs[n] (List.getElem_mem hn2)).1
  exact ⟨by linarith, hsple⟩

/-- **C7.** Whenever the LP solver succeeds (its solution vector is
non-negative, as forced by the `bounds`) and the rounding pass completes,
the rounded integer plan satisfies both constraint families: every plan
entry is non-negative, each keyword's column sums to at most its
predicted demand, and each advertiser's row costs at most its initial
budget (with `bid(i,k)` the bid-table entry, `0` when absent, as the
pessimistic allocator reads it). -/
theorem C7_offline_plan_feasibility
    (bids : BidTable) (pred : List (String × ℤ)) (advs : List Advertiser)
    (keywords : List String) (sol : ℕ → ℚ) (nV : ℕ) (rs : RoundState)
    (hb : BidsNonneg bids) (hsol : ∀ i, 0 ≤ sol i)
    (hadv : BudgetInv advs) (hpred : ∀ p ∈ pred, 0 ≤ p.2)
    (h : round_solution_to_integers bids pred advs advs.length keywords sol
      nV = some rs) :
    (∀ i k, 0 ≤ rs.allocations i k) ∧
    (∀ (ki : ℕ) (hki : ki < keywords.length) (dq : ℤ),
        pred.lookup keywords[ki] = some dq →
          (∑ i ∈ Finset.range advs.length, rs.allocations i ki) ≤ dq) ∧
    (∀ (i : ℕ) (hi : i < advs.length),
        (∑ ki ∈ Finset.range keywords.length,
            (rs.allocations i ki : ℚ) *
              getBid0 bids advs[i].name ((keywords[ki]?).getD "")) ≤
          advs[i].initial_budget) := by
  obtain ⟨rem0, hspec1, hspec2, hfin⟩ :=
    round_solution_RInv hb hsol hadv hpred h
  obtain ⟨hlen, halloc, hadvinv, hkeys, hdem⟩ := hfin
  refine ⟨halloc, ?_, ?_⟩
  · intro ki hki dq hdq
    have hmemk : keywords[ki] ∈ keywords := List.getElem_mem hki
    have hr0 : (rem0.lookup keywords[ki]).isSome := hspec2 _ hmemk
    have hrs : (rs.remaining.lookup keywords[ki]).isSome :=
      (hkeys _).mpr hr0
    cases hfin2 : rs.remaining.lookup keywords[ki] with
    | none => rw [hfin2] at hrs; exact absurd hrs (by simp)
    | some dfin =>
      obtain ⟨hdfin, d0, hd0, hsumle⟩ := hdem _ dfin hfin2
      have hd0q : d0 = dq := by
        have := hspec1 _ d0 hd0
        rw [hdq] at this
        exact (Option.some_inj.mp this).symm
      have hcol : (∑ i ∈ Finset.range advs.length, rs.allocations i ki) ≤
          ∑ i ∈ Finset.range advs.length,
            ∑ x ∈ Finset.range keywords.length,
              (if keywords[x]? = some keywords[ki]
                then rs.allocations i x else 0) := by
        apply Finset.sum_le_sum
        intro i _
        have hsingle : (if keywords[ki]? = some keywords[ki]
            then rs.allocations i ki else 0) ≤
            ∑ x ∈ Finset.range keywords.length,
              (if keywords[x]? = some keywords[ki]
                then rs.allocations i x else 0) := by
          apply Finset.single_le_sum (f := fun x =>
            (if keywords[x]? = some keywords[ki]
              then rs.allocations i x else 0))
          · intro x _
            by_cases hg : keywords[x]? = some keywords[ki]
            · rw [if_pos hg]; exact halloc i x
            · rw [if_neg hg]
          · exact Finset.mem_range.mpr hki
        rw [if_pos (List.getElem?_eq_getElem hki)] at hsingle
        exact hsingle
      rw [← hd0q]
      omega
  · intro i hi
    have hi2 : i < rs.advertisers.length := by rw [hlen]; exact hi
    have hc0 : advs[i]? = some advs[i] := List.getElem?_eq_getElem hi
    have hc : rs.advertisers[i]? = some (rs.advertisers[i]) :=
      List.getElem?_eq_getElem hi2
    obtain ⟨hname, hinit2, hsp0, hsple, hbudsum⟩ :=
      hadvinv i advs[i] (rs.advertisers[i]) hc0 hc
    have hgb : ∀ x, getBid0 bids advs[i].name ((keywords[x]?).getD "") ≤
        planBid bids advs keywords i x := by
      intro x
      unfold getBid0 planBid
      rw [hc0, Option.map_some', Option.getD_some]
      cases hdd : bids.lookup advs[i].name with
      | none => simp [hdd]
      | some dd =>
        simp only [hdd, Option.getD_some]
        cases hv : dd.lookup ((keywords[x]?).getD "") with
        | none => simp [hv]
        | some v => simp [hv]
    have hterm : (∑ ki ∈ Finset.range keywords.length,
        (rs.allocations i ki : ℚ) *
          getBid0 bids advs[i].name ((keywords[ki]?).getD "")) ≤
        ∑ ki ∈ Finset.range keywords.length,
          (rs.allocations i ki : ℚ) * planBid bids advs keywords i ki := by
      apply Finset.sum_le_sum
      intro x _
      exact mul_le_mul_of_nonneg_left (hgb x) (by exact_mod_cast halloc i x)
    have hsp0nn : 0 ≤ advs[i].spent_budget :=
      (hadv _ (List.getElem_mem hi)).1
    have := hbudsum
    rw [hinit2] at hsple
    linarith

/-- The rounded state of the concrete one-advertiser instance: one unit
of `k1` allocated to `A1`, costing 5 of its budget of 10. -/
def rsEx : RoundState :=
  ⟨fun r c => if r = 0 ∧ c = 0 then 1 else 0, [⟨"A1", 10, 5⟩], [("k1", 0)]⟩

theorem roundEx_eval :
    round_solution_to_integers bidsEx predEx [⟨"A1", 10, 0⟩] 1 ["k1"] solEx 1 =
      some rsEx := by
  have hrange : List.range 1 = [0] := by decide
  norm_num [round_solution_to_integers, sortedIndices, roundStep, truncQ,
    Advertiser.deduct_budget, Advertiser.remaining_budget, dictSetZ,
    List.lookup, bidsEx, predEx, solEx, List.foldlM, List.mapM,
    List.mapM.loop, hrange, List.mergeSort_singleton, rsEx,
    RoundState.mk.injEq]

/-- Witness for C7 on the concrete one-advertiser instance. -/
theorem C7_offline_plan_feasibility_witness :
    (0 ≤ rsEx.allocations 0 0) ∧
    ((∑ i ∈ Finset.range 1, rsEx.allocations i 0) ≤ 1) ∧
    ((∑ ki ∈ Finset.range 1,
        (rsEx.allocations 0 ki : ℚ) *
          getBid0 bidsEx "A1" (((["k1"] : List String)[ki]?).getD "")) ≤ 10) := by
  have h := C7_offline_plan_feasibility bidsEx predEx [⟨"A1", 10, 0⟩]
    ["k1"] solEx 1 rsEx
    (by intro p hp q hq; simp [bidsEx] at hp; rw [hp] at hq; simp at hq; rw [hq]; norm_num)
    (fun i => by unfold solEx; split <;> norm_num)
    (by intro a ha; simp at ha; rw [ha]; norm_num)
    (by intro p hp; simp [predEx] at hp; rw [hp]; norm_num)
    roundEx_eval
  exact ⟨h.1 0 0, h.2.1 0 (by norm_num) 1 (by decide), h.2.2 0 (by norm_num)⟩

/-- Witness for C10: with one keyword and an empty predicted-demand map
(missing the generated name `"k1"`), constructing the oracle fails. -/
theorem C10_keyword_naming_and_column_alignment_witness :
    solve_allocation 1 [] [] [] (fun _ => 0) = none :=
  C10_keyword_naming_and_column_alignment.2.2.1 1 [] [] [] (fun _ => 0)
    ⟨"k1", by decide, by decide⟩


-- ------------------------------------------------------------------
-- C1 — the budget invariant along whole simulation runs
-- ------------------------------------------------------------------

theorem set_preserves_BudgetInv {l : List Advertiser} {i : ℕ}
    {a' : Advertiser} (hl : BudgetInv l)
    (ha' : 0 ≤ a'.spent_budget ∧ a'.spent_budget ≤ a'.initial_budget) :
    BudgetInv (l.set i a') := by
  intro x hx
  rcases List.mem_or_eq_of_mem_set hx with h1 | h2
  · exact hl x h1
  · rw [h2]; exact ha'

theorem reset_preserves_BudgetInv {l : List Advertiser}
    (hl : BudgetInv l) : BudgetInv (reset_budgets l) := by
  intro x hx
  unfold reset_budgets at hx
  rw [List.mem_map] at hx
  obtain ⟨a, ha, hax⟩ := hx
  have := hl a ha
  rw [← hax]
  exact ⟨le_refl 0, by simp only []; linarith [this.1, this.2]⟩

theorem pess_allocate_BudgetInv (st : PessimisticAlgorithm) (query : String)
    (res : Option (Advertiser × ℚ)) (st' : PessimisticAlgorithm)
    (h : st.allocate_query query = some (res, st'))
    (hinv : BudgetInv st.advertisers) : BudgetInv st'.advertisers := by
  have hs := (pess_allocate_spec st query).2 res st' h
  cases res with
  | none =>
    rw [(hs.1 rfl).1]
    exact hinv
  | some t =>
    rcases t with ⟨a', b⟩
    obtain ⟨i, pre, hget, helig, hb, ha', hst', _⟩ := hs.2 a' b rfl
    rw [hst']
    apply set_preserves_BudgetInv hinv
    have hpre := hinv pre (List.getElem?_mem hget)
    have hb0 : 0 < b := hb ▸ helig.1
    have hble : b ≤ pre.remaining_budget := hb ▸ helig.2
    unfold Advertiser.remaining_budget at hble
    rw [ha']
    exact ⟨by simp only []; linarith [hpre.1], by simp only []; linarith⟩

theorem opt_allocate_BudgetInv (st : OptimisticAlgorithm) (query : String)
    (res : Option (Advertiser × ℚ)) (st' : OptimisticAlgorithm)
    (h : st.allocate_query query = some (res, st'))
    (hinv : BudgetInv st.advertisers) (hbn : BidsNonneg st.bids) :
    BudgetInv st'.advertisers := by
  have hs := (opt_allocate_spec st query).1 res st' h
  cases res with
  | none =>
    rw [hs.1 rfl]
    exact hinv
  | some t =>
    rcases t with ⟨a', b⟩
    obtain ⟨i, pre, hget, hble, ⟨d, hdl, hb⟩, ha', hst', _⟩ := hs.2 a' b rfl
    rw [hst']
    apply set_preserves_BudgetInv hinv
    have hpre := hinv pre (List.getElem?_mem hget)
    have hb0 : 0 ≤ b := by
      rw [hb]
      cases hv : d.lookup query with
      | none => simp [hv]
      | some v =>
        simp only [hv, Option.getD_some]
        exact hbn _ (lookup_mem hdl) _ (lookup_mem hv)
    unfold Advertiser.remaining_budget at hble
    rw [ha']
    exact ⟨by simp only []; linarith [hpre.1], by simp only []; linarith⟩

theorem balanced_allocate_BudgetInv (st : BalancedState) (query : String)
    (res : Option (Advertiser × ℚ)) (st' : BalancedState)
    (h : balancedAllocate st query = some (res, st'))
    (hauth : BudgetInv st.auth) (hcopy : BudgetInv st.opt.advertisers)
    (hbno : BidsNonneg st.opt.bids) :
    BudgetInv st'.auth ∧ BudgetInv st'.pess.advertisers := by
  obtain ⟨oc, opt', pc, pess', ho, hp, hpeq, hdich⟩ :=
    balanced_allocate_effect st query res st' h
  constructor
  · rcases hdich with ⟨_, _, _, heq⟩ |
      ⟨i, adv, b, adv', w, hget, hded, _, hset, _, _, _, _, _, hbnn⟩
    · rw [heq]; exact hauth
    · rw [hset]
      apply set_preserves_BudgetInv hauth
      obtain ⟨hble, hadv'⟩ := deduct_budget_some hded
      have hb0 := hbnn hbno
      have hai := hauth adv (List.getElem?_mem hget)
      unfold Advertiser.remaining_budget at hble
      rw [hadv']
      exact ⟨by simp only []; linarith [hai.1], by simp only []; linarith⟩
  · have h1 : BudgetInv opt'.advertisers :=
      opt_allocate_BudgetInv st.opt query oc opt' ho hcopy hbno
    have h2 : BudgetInv pess'.advertisers :=
      pess_allocate_BudgetInv ⟨st.pess.bids, opt'.advertisers, st.pess.alpha⟩
        query pc pess' hp h1
    rw [hpeq]
    exact h2

/-- One atomic mutation of the pair (authoritative ledger, cached/shadow
copy) that a simulation run can perform, as the source performs it:
a standalone pessimistic or optimistic `allocate_query` on the
authoritative list, a balanced `allocate_query` (touching both lists; the
shared shadow's final value is the pessimistic sub-state's list),
`Advertiser.reset_budgets` (authoritative only — the cached copy is
deliberately untouched, as in the source), `reset_advertiser_list_copy`,
and the offline oracle's rounding pass mutating the cached copy during
`OptimisticAlgorithm.__init__`/`BalancedAlgorithm.__init__` (the LP
output is non-negative by the `bounds` of `linprog`, and predicted
demand counts are non-negative, recorded as constructor hypotheses). -/
inductive SimStep (bids : BidTable) :
    (List Advertiser × List Advertiser) →
      (List Advertiser × List Advertiser) → Prop
  | pess_standalone (auth copy : List Advertiser) (alpha : ℝ) (query : String)
      (res : Option (Advertiser × ℚ)) (st' : PessimisticAlgorithm)
      (h : PessimisticAlgorithm.allocate_query ⟨bids, auth, alpha⟩ query =
        some (res, st')) :
      SimStep bids (auth, copy) (st'.advertisers, copy)
  | opt_standalone (auth copy : List Advertiser) (ost : OptimisticAlgorithm)
      (hadv : ost.advertisers = auth) (hbids : ost.bids = bids)
      (query : String) (res : Option (Advertiser × ℚ))
      (st' : OptimisticAlgorithm)
      (h : ost.allocate_query query = some (res, st')) :
      SimStep bids (auth, copy) (st'.advertisers, copy)
  | balanced (auth copy : List Advertiser) (bst : BalancedState)
      (hauth : bst.auth = auth) (hopt : bst.opt.advertisers = copy)
      (hob : bst.opt.bids = bids) (query : String)
      (res : Option (Advertiser × ℚ)) (bst' : BalancedState)
      (h : balancedAllocate bst query = some (res, bst')) :
      SimStep bids (auth, copy) (bst'.auth, bst'.pess.advertisers)
  | resetB (auth copy : List Advertiser) :
      SimStep bids (auth, copy) (reset_budgets auth, copy)
  | resetCopy (auth copy : List Advertiser) :
      SimStep bids (auth, copy) (auth, auth)
  | construct_offline (auth copy : List Advertiser) (keywords : List String)
      (pred : List (String × ℤ)) (sol : ℕ → ℚ) (nV : ℕ) (rs : RoundState)
      (hsol : ∀ i, 0 ≤ sol i) (hpred : ∀ p ∈ pred, 0 ≤ p.2)
      (h : round_solution_to_integers bids pred copy copy.length keywords
        sol nV = some rs) :
      SimStep bids (auth, copy) (auth, rs.advertisers)

theorem SimStep_preserves {bids : BidTable} (hb : BidsNonneg bids) :
    ∀ s s', SimStep bids s s' →
      BudgetInv s.1 ∧ BudgetInv s.2 → BudgetInv s'.1 ∧ BudgetInv s'.2 := by
  intro s s' hstep hinv
  cases hstep with
  | pess_standalone auth copy alpha query res st' h =>
    exact ⟨pess_allocate_BudgetInv _ query res st' h hinv.1, hinv.2⟩
  | opt_standalone auth copy ost hadv hbids query res st' h =>
    refine ⟨opt_allocate_BudgetInv ost query res st' h ?_ ?_, hinv.2⟩
    · rw [hadv]; exact hinv.1
    · rw [hbids]; exact hb
  | balanced auth copy bst hauth hopt hob query res bst' h =>
    refine balanced_allocate_BudgetInv bst query res bst' h ?_ ?_ ?_
    · rw [hauth]; exact hinv.1
    · rw [hopt]; exact hinv.2
    · rw [hob]; exact hb
  | resetB auth copy =>
    exact ⟨reset_preserves_BudgetInv hinv.1, hinv.2⟩
  | resetCopy auth copy =>
    exact ⟨hinv.1, hinv.1⟩
  | construct_offline auth copy keywords pred sol nV rs hsol hpred h =>
    exact ⟨hinv.1, round_preserves_BudgetInv hb hsol hinv.2 hpred h⟩

/-- **C1.** Starting from any state satisfying the budget invariant
(construction gives `spent_budget = 0` with a non-negative initial
budget), every advertiser of both the authoritative ledger and the
cached/shadow copy satisfies `0 ≤ spent_budget ≤ initial_budget` after
any sequence of allocate calls of the three allocators, budget resets,
copy resets and offline-planning constructions (given the data model's
non-negative bid table); and any deduction attempt exceeding the
remaining budget is rejected with an error (`none`) — so never silently
clamped, as `deduct_budget` has no other failure-free path. -/
theorem C1_budget_invariant (bids : BidTable) (hb : BidsNonneg bids) :
    (∀ s0 s : List Advertiser × List Advertiser,
      BudgetInv s0.1 → BudgetInv s0.2 →
      Relation.ReflTransGen (SimStep bids) s0 s →
      BudgetInv s.1 ∧ BudgetInv s.2) ∧
    (∀ (a : Advertiser) (amount : ℚ), amount > a.remaining_budget →
      a.deduct_budget amount = none) := by
  constructor
  · intro s0 s h1 h2 htrace
    induction htrace with
    | refl => exact ⟨h1, h2⟩
    | tail hsteps hstep ih => exact SimStep_preserves hb _ _ hstep ih
  · intro a amount h
    exact deduct_budget_none h

/-- Witness for C1: a concrete two-step run (a budget reset followed by a
copy reset) keeps the invariant, and a concrete over-budget deduction is
rejected. -/
theorem C1_budget_invariant_witness :
    (BudgetInv [(⟨"A1", 10, 0⟩ : Advertiser)] ∧
      BudgetInv [(⟨"A1", 10, 0⟩ : Advertiser)]) ∧
    Advertiser.deduct_budget ⟨"A1", 10, 4⟩ 7 = none := by
  have hb : BidsNonneg [("A1", [("k1", 5)])] := by
    intro p hp q hq
    simp at hp
    rw [hp] at hq
    simp at hq
    rw [hq]
    norm_num
  have h := C1_budget_invariant [("A1", [("k1", 5)])] hb
  constructor
  · have htrace : Relation.ReflTransGen (SimStep [("A1", [("k1", 5)])])
        ([⟨"A1", 10, 3⟩], [⟨"A1", 10, 3⟩])
        ((reset_budgets [⟨"A1", 10, 3⟩]), [⟨"A1", 10, 3⟩]) :=
      Relation.ReflTransGen.single
        (SimStep.resetB [⟨"A1", 10, 3⟩] [⟨"A1", 10, 3⟩])
    have hres := h.1 ([⟨"A1", 10, 3⟩], [⟨"A1", 10, 3⟩])
      ((reset_budgets [⟨"A1", 10, 3⟩]), [⟨"A1", 10, 3⟩])
      (by intro a ha; simp at ha; rw [ha]; norm_num)
      (by intro a ha; simp at ha; rw [ha]; norm_num)
      htrace
    constructor
    · have : reset_budgets [(⟨"A1", 10, 3⟩ : Advertiser)] = [⟨"A1", 10, 0⟩] := by
        simp [reset_budgets]
      rw [← this]
      exact hres.1
    · intro a ha
      simp at ha
      rw [ha]
      norm_num
  · exact h.2 ⟨"A1", 10, 4⟩ 7 (by norm_num [Advertiser.remaining_budget])

end OQA
